import Mathlib

/-!
Verification of the avr-absurd debug bridge (GDB RSP server over UPDI/OCD).

This file shallowly embeds the Python sources (`absurd/rspserver.py`,
`absurd/debugger/debugger.py`, `absurd/updi/updirev3.py`) in Lean.  Byte
strings are modelled as `List Nat` (one `Nat` per byte / character code);
Python `int` values that may be negative are modelled as `Int`.  Fallible
steps (Python exceptions) are modelled with `Option`: `none` means the
corresponding Python call raises.
-/

namespace Absurd

/-- Python `bytes.split(sep)` for a single-byte separator: every occurrence
of the separator splits, empty runs are kept, and the result is never empty. -/
def splitOn (sep : Nat) : List Nat → List (List Nat)
  | [] => [[]]
  | b :: rest =>
    if b = sep then [] :: splitOn sep rest
    else
      match splitOn sep rest with
      | [] => [[b]]
      | s :: ss => (b :: s) :: ss

/-- Python `cand.split(b'#', 1)` when a `'#'` is present: the part before the
first `'#'` and the part after it.  (With no `'#'` this returns the whole
list and `[]`; `process_bytes` only calls it when a `'#'` is present.) -/
def splitHash (l : List Nat) : List Nat × List Nat :=
  (l.takeWhile (fun c => c ≠ 0x23), ((l.dropWhile (fun c => c ≠ 0x23)).drop 1))

/-- The completeness test in `GdbPacketParser.process_bytes`:
`b'#' in cand[:-2]`, i.e. a `'#'` strictly before the last two bytes. -/
def isComplete (cand : List Nat) : Bool :=
  (cand.take (cand.length - 2)).contains 0x23

/-- The ASCII whitespace characters Python `int()` strips around a
numeral: space and `\t \n \v \f \r`. -/
def isPySpace (c : Nat) : Bool :=
  c == 0x20 || (0x09 ≤ c && c ≤ 0x0D)

/-- Value of one hexadecimal digit character, if it is one. -/
def hexVal (c : Nat) : Option Nat :=
  if 0x30 ≤ c ∧ c ≤ 0x39 then some (c - 0x30)
  else if 0x61 ≤ c ∧ c ≤ 0x66 then some (c - 0x57)
  else if 0x41 ≤ c ∧ c ≤ 0x46 then some (c - 0x37)
  else none

/-- Accumulate further hex digits after at least one digit has been read.
A single underscore is allowed between digits (Python numeric literals). -/
def hexDigitsCore (acc : Nat) : List Nat → Option Nat
  | [] => some acc
  | 0x5F :: c :: rest =>
    match hexVal c with
    | some v => hexDigitsCore (16 * acc + v) rest
    | none => none
  | [0x5F] => none
  | c :: rest =>
    match hexVal c with
    | some v => hexDigitsCore (16 * acc + v) rest
    | none => none

/-- Parse a nonempty run of hex digits (with single underscores between
digits), as Python `int(·, 16)` does after sign/prefix handling. -/
def parseHexDigits : List Nat → Option Nat
  | [] => none
  | c :: rest =>
    match hexVal c with
    | some v => hexDigitsCore v rest
    | none => none

/-- Digits of Python `int(·, 16)` after the optional sign: an optional
`0x` / `0X` prefix (an underscore may follow the prefix), then digits. -/
def parseHexBody : List Nat → Option Nat
  | 0x30 :: 0x78 :: rest =>
    (match rest with
     | 0x5F :: rest2 => parseHexDigits rest2
     | _ => parseHexDigits rest)
  | 0x30 :: 0x58 :: rest =>
    (match rest with
     | 0x5F :: rest2 => parseHexDigits rest2
     | _ => parseHexDigits rest)
  | l => parseHexDigits l

/-- Python `int(s, 16)` on an ASCII string `s`: strip whitespace, optional
sign, optional `0x` prefix, hex digits.  `none` models `ValueError`. -/
def pyIntHex (s : List Nat) : Option Int :=
  let t := ((s.dropWhile isPySpace).reverse.dropWhile isPySpace).reverse
  match t with
  | 0x2B :: rest => (parseHexBody rest).map (fun n => (n : Int))
  | 0x2D :: rest => (parseHexBody rest).map (fun n => -(n : Int))
  | _ => (parseHexBody t).map (fun n => (n : Int))

/-- `rspserver.verify_checksum`: the received checksum is
`checksum[:2].decode("ascii", errors="ignore")` (non-ASCII bytes dropped)
parsed by `int(·, 16)`; compared with `sum(payload) % 256`.  A parse
failure (`ValueError`) yields `False`. -/
def verify_checksum (payload checksum : List Nat) : Bool :=
  match pyIntHex ((checksum.take 2).filter (fun c => c < 0x80)) with
  | some v => decide ((payload.sum % 256 : Int) = v)
  | none => false

/-- One run of `rspserver.unescape` after a `'}'` separator: if nonempty,
its first byte XOR 0x20 is prepended to the rest; the rest is ASCII-decoded
(`none` = `UnicodeDecodeError`). -/
def unescapeRun : List Nat → Option (List Nat)
  | [] => some []
  | c :: cs => if cs.all (fun b => b < 0x80) then some ((c ^^^ 0x20) :: cs) else none

/-- Process the runs following the first `'}'`-separated part. -/
def unescapeRuns : List (List Nat) → Option (List (List Nat))
  | [] => some []
  | run :: rest =>
    match unescapeRun run, unescapeRuns rest with
    | some p, some ps => some (p :: ps)
    | _, _ => none

/-- `rspserver.unescape`: split on `'}'`; the first part is ASCII-decoded
verbatim; each later run contributes its first byte XOR 0x20 followed by
the rest.  `none` models a `UnicodeDecodeError` from `.decode("ascii")`. -/
def unescape (data : List Nat) : Option (List Nat) :=
  match splitOn 0x7D data with
  | [] => none
  | p0 :: rest =>
    match (if p0.all (fun b => b < 0x80) then some p0 else none), unescapeRuns rest with
    | some first, some pieces => some (first ++ pieces.flatten)
    | _, _ => none

/-- The final comprehension of `process_bytes`: unescape each checked
`(payload, checksum)` pair, ASCII-encode the result (both fallible), and
keep those whose checksum verifies. -/
def unescapeVerify : List (List Nat × List Nat) → Option (List (List Nat))
  | [] => some []
  | pc :: rest =>
    match unescape pc.1 with
    | none => none
    | some up =>
      if up.all (fun b => b < 0x80) then
        match unescapeVerify rest with
        | none => none
        | some tl => some (if verify_checksum up pc.2 then up :: tl else tl)
      else none

/-- The body of `GdbPacketParser.process_bytes` once the candidate list has
been formed: decode complete front candidates, decide whether the last
candidate is complete, filter for ASCII payloads, unescape and verify. -/
def decodeCands (candidates : List (List Nat)) : Option (List (List Nat) × List Nat) :=
  let lastc := candidates.getLastD []
  let frontComplete := (candidates.dropLast.filter isComplete).map splitHash
  let complete := if isComplete lastc then frontComplete ++ [splitHash lastc] else frontComplete
  let newpending := if isComplete lastc then ([] : List Nat) else lastc
  let checked := complete.filter fun pc => pc.1.all (fun b => b < 0x80)
  (unescapeVerify checked).map fun ups => (ups, newpending)

/-- `GdbPacketParser.process_bytes`: state-passing form.  Takes the pending
partial buffer and the received data; returns the decoded payloads and the
new pending buffer.  Empty input is a no-op returning no packets. -/
def processBytes (pending data : List Nat) : Option (List (List Nat) × List Nat) :=
  if data.isEmpty then some ([], pending)
  else
    let cands := splitOn 0x24 data
    decodeCands ((pending ++ cands.headI) :: cands.tail)

/-- Feeding a sequence of chunks through `process_bytes`, accumulating the
decoded payloads, as the `serve` loop does across `recv` calls. -/
def processChunks (pending : List Nat) : List (List Nat) → Option (List (List Nat) × List Nat)
  | [] => some ([], pending)
  | c :: cs =>
    match processBytes pending c with
    | none => none
    | some (ps, p1) =>
      match processChunks p1 cs with
      | none => none
      | some (ps2, p2) => some (ps ++ ps2, p2)

/-- Lowercase hex digit character for a value below 16. -/
def hexChar (n : Nat) : Nat := if n < 10 then 0x30 + n else 0x57 + n

/-- Two lowercase hex digits for a byte value (`f"{b:02x}"` with `b < 256`,
and each byte of Python `bytes.hex()`). -/
def byteHex (b : Nat) : List Nat := [hexChar (b / 16), hexChar (b % 16)]

/-- Python `bytes.hex()`: two lowercase hex digits per byte. -/
def hexStr (bs : List Nat) : List Nat := (bs.map byteHex).flatten

/-- Python `str.replace(needle, repl)` for a single-character needle. -/
def replace1 (needle : Nat) (repl : List Nat) : List Nat → List Nat
  | [] => []
  | c :: rest => (if c = needle then repl else [c]) ++ replace1 needle repl rest

/-- The escaped payload of `RspServer.send_packet`: the four sequential
`str.replace` calls escaping `'}'`, `'#'`, `'$'`, `'*'`. -/
def escapeChain (data : List Nat) : List Nat :=
  replace1 0x2A [0x7D, 0x0A]
    (replace1 0x24 [0x7D, 0x04]
      (replace1 0x23 [0x7D, 0x03]
        (replace1 0x7D [0x7D, 0x5D] data)))

/-- The frame body emitted by `send_packet` after the leading `'$'`:
escaped payload, `'#'`, and the two-hex-digit checksum of the unescaped
payload (`f"{sum(data) % 256:02x}"`). -/
def frameBody (data : List Nat) : List Nat :=
  escapeChain data ++ 0x23 :: byteHex (data.sum % 256)

/-- `RspServer.send_packet`: the byte frame written to the client,
`$` escaped-payload `#` checksum. -/
def sendPacket (data : List Nat) : List Nat :=
  0x24 :: frameBody data

/-! ## OCD debugger layer (`absurd/debugger/debugger.py`)

The UPDI bus is abstracted by the byte contents the target returns for
each data-space address (`mem`), plus the device's flash offset. -/

/-- Abstract target state seen through UPDI: flash offset from the device
table and the data-space byte contents returned by burst loads. -/
structure Ocd where
  flashOffset : Nat
  mem : Nat → Nat

/-- `UpdiRev3.load_burst(addr, burst)`: `st ptr` / `repeat` / `ld *ptr++`
returns `burst` consecutive bytes starting at `addr`. -/
def load_burst (o : Ocd) (addr burst : Nat) : List Nat :=
  (List.range burst).map fun i => o.mem (addr + i)

/-- `OcdRev1.read_code`: code space is `[0, 0x200000)`; `length` is clamped
to 256; out-of-range or non-positive length yields empty bytes. -/
def read_code (o : Ocd) (start length : Int) : List Nat :=
  if start < 0 ∨ 0x200000 ≤ start ∨ length ≤ 0 then []
  else load_burst o (start.toNat + o.flashOffset) (min length 256).toNat

/-- `OcdRev1.read_data`: data space is `[0, 0x10000)`; `length` is clamped
to 256; out-of-range or non-positive length yields empty bytes. -/
def read_data (o : Ocd) (start length : Int) : List Nat :=
  if start < 0 ∨ 0x10000 ≤ start ∨ length ≤ 0 then []
  else load_burst o start.toNat (min length 256).toNat

/-- `UpdiRev3.store_burst` (via `store_pointer`, `repeat`,
`store_indirect`) modelled by the list of `(address, byte)` stores it
performs.  `none` models an `AssertionError`: `store_pointer` asserts the
address fits in 3 bytes, `repeat` asserts `1 <= count <= 0x100`, and
`store_indirect` asserts `len(data) >= burst` and `1 <= burst <= 0xFF`. -/
def store_burst (start : Nat) (data : List Nat) : Option (List (Nat × Nat)) :=
  if start ≤ 0xFFFFFF then
    if 1 ≤ data.length ∧ data.length ≤ 0x100 then
      if data.length ≤ 0xFF then
        some ((List.range data.length).map fun i => (start + i, data.getD i 0))
      else none
    else none
  else none

/-- `OcdRev1.write_data`: rejects (returns `False`, no store) when the
start is outside the data region or the length is 0 or above 256;
otherwise performs `store_burst` with `burst = len(data)`.  The result is
the returned flag paired with the stores performed; `none` models an
uncaught `AssertionError`. -/
def write_data (start : Int) (data : List Nat) : Option (Bool × List (Nat × Nat)) :=
  if start < 0 ∨ 0x10000 ≤ start ∨ data.length = 0 ∨ 256 < data.length then
    some (false, [])
  else (store_burst start.toNat data).map fun ws => (true, ws)

/-- `OcdRev1.get_pc`: the OCD PC word value minus 1 (the OCD exposes the
PC biased by +1). -/
def get_pc (pcw : Nat) : Int := (pcw : Int) - 1

/-! ## RSP server dispatch (`absurd/rspserver.py`) -/

/-- Reply string `"OK"`. -/
def strOK : List Nat := [0x4F, 0x4B]
/-- Reply string `"E01"` (invalid arguments). -/
def strE01 : List Nat := [0x45, 0x30, 0x31]
/-- Reply string `"E02"` (address out of range). -/
def strE02 : List Nat := [0x45, 0x30, 0x32]
/-- Reply string `"E04"` (out of hardware breakpoints). -/
def strE04 : List Nat := [0x45, 0x30, 0x34]
/-- Reply string `"E05"` (no such breakpoint). -/
def strE05 : List Nat := [0x45, 0x30, 0x35]

/-- The `m addr,len` branch of `RspServer.handle_packet`, after
`parse_addr` has produced `addr` and `length`: choose code or data space
by address, and reply `E02` when no read happened or the read returned
falsy (empty) bytes (`if data:`). -/
def handle_m (o : Ocd) (addr length : Int) : List Nat :=
  let data : Option (List Nat) :=
    if 0 ≤ addr ∧ addr < 0x200000 then some (read_code o addr length)
    else if 0x800000 ≤ addr ∧ addr < 0x810000 then some (read_data o (addr - 0x800000) length)
    else none
  match data with
  | some d => if d.isEmpty then strE02 else hexStr d
  | none => strE02

/-- The `M addr,len:<hex>` branch of `RspServer.handle_packet`, after
parsing: if the decoded data length mismatches, reply `E01`; the
out-of-range branch sends `E02` but does not return, so control falls
through to `write_data` and a second reply.  Result: the replies sent in
order, and the stores performed; `none` models an uncaught exception. -/
def handle_M_write (addr length : Int) (data : List Nat) : Option (List (List Nat) × List (Nat × Nat)) :=
  if (data.length : Int) ≠ length then some ([strE01], [])
  else
    let pre : List (List Nat) :=
      if ¬(0x800000 ≤ addr ∧ addr < 0x810000) then [strE02] else []
    (write_data (addr - 0x800000) data).map fun r =>
      if r.1 then (pre ++ [strOK], r.2) else (pre ++ [strE01], r.2)

/-- A call made by the server into the OCD breakpoint interface. -/
inductive BpCall
  | set (id : Nat) (wordaddr : Int)
  | clear (id : Nat)
deriving DecidableEq, Repr

/-- The `Z1 addr,…` branch of `RspServer.handle_packet`, after parsing
`addr`: take the first free slot (sentinel `-1`), record the byte address,
call `set_bp(id, addr >> 1)` and reply `OK`; reply `E04` with no call when
both slots are occupied.  Returns the new slot table, the reply, and the
OCD calls made. -/
def handle_Z1 (bps : Int × Int) (addr : Int) : (Int × Int) × List Nat × List BpCall :=
  if bps.1 < 0 then ((addr, bps.2), strOK, [BpCall.set 0 (Int.fdiv addr 2)])
  else if bps.2 < 0 then ((bps.1, addr), strOK, [BpCall.set 1 (Int.fdiv addr 2)])
  else (bps, strE04, [])

/-- The `z1 addr,…` branch of `RspServer.handle_packet`: clear the slot
recording `addr` and call `clear_bp(id)`; reply `E05` with no call when
no slot matches. -/
def handle_z1 (bps : Int × Int) (addr : Int) : (Int × Int) × List Nat × List BpCall :=
  if bps.1 = addr then ((-1, bps.2), strOK, [BpCall.clear 0])
  else if bps.2 = addr then ((bps.1, -1), strOK, [BpCall.clear 1])
  else (bps, strE05, [])

/-- Big-endian hexadecimal digit characters of a natural number, with a
fuel bound on the recursion depth (`n + 1` always suffices). -/
def natHexDigitsAux : Nat → Nat → List Nat
  | 0, _ => []
  | fuel + 1, n =>
    if n < 16 then [hexChar n]
    else natHexDigitsAux fuel (n / 16) ++ [hexChar (n % 16)]

/-- Big-endian hexadecimal digit characters of a natural number
(minimal length, `"0"` for 0), as Python `format(n, "x")` produces. -/
def natHexDigits (n : Nat) : List Nat := natHexDigitsAux (n + 1) n

/-- Python `f"{n:0Wx}"`: lowercase hex digits zero-padded to width `W`;
a negative number carries a leading minus inside the width. -/
def pyFormatHex (width : Nat) (n : Int) : List Nat :=
  if n < 0 then
    let ds := natHexDigits n.natAbs
    0x2D :: (List.replicate (width - 1 - ds.length) 0x30 ++ ds)
  else
    let ds := natHexDigits n.toNat
    List.replicate (width - ds.length) 0x30 ++ ds

/-- The `g` branch of `RspServer.handle_packet`, abstracted over the
values the OCD reads return: the 32 register-file bytes, SREG, SP and the
raw OCD PC word.  `pc = get_pc() << 1`; SP and PC are emitted
little-endian with `f"{…:02x}"`, then a zero pad byte. -/
def handle_g (gprs : List Nat) (sreg sp pcw : Nat) : List Nat :=
  let pc : Int := get_pc pcw * 2
  let sph := sp / 256
  let spl := sp % 256
  let pct := Int.fdiv pc 0x10000
  let pch := (Int.fdiv pc 0x100) % 0x100
  let pcl := pc % 0x100
  hexStr gprs ++ pyFormatHex 2 (sreg : Int) ++ pyFormatHex 2 (spl : Int) ++
    pyFormatHex 2 (sph : Int) ++ pyFormatHex 2 pcl ++ pyFormatHex 2 pch ++
    pyFormatHex 2 pct ++ [0x30, 0x30]

/-- Observable actions of one iteration of the `serve` loop. -/
inductive ServeAction
  | ackInterrupt
  | haltCpu
  | pollHalted
  | sendSigint
  | ackPacket
  | dispatch (p : List Nat)
deriving DecidableEq, Repr

/-- One iteration of the `RspServer.serve` packet loop on a received
chunk: feed the chunk to the codec; if the raw chunk contains a `0x03`
byte, ACK, halt, poll and send `S02`; then ACK and dispatch each decoded
packet.  `none` models an uncaught exception from the codec. -/
def serveStep (pending data : List Nat) : Option (List ServeAction × List Nat) :=
  (processBytes pending data).map fun r =>
    ((if data.contains 0x03 then
        [ServeAction.ackInterrupt, ServeAction.haltCpu, ServeAction.pollHalted,
         ServeAction.sendSigint]
      else []) ++
     (r.1.map fun p => [ServeAction.ackPacket, ServeAction.dispatch p]).flatten,
     r.2)

/-! ## Claim-side (specification) definitions

These definitions follow the words of the specification sentences under
test, for comparison with the code-derived definitions above. -/

/-- Spec-side reading of a two-hex-digit checksum: both characters must be
hexadecimal digits, and the value is `16*d1 + d2`. -/
def specStrictHexPair (c1 c2 : Nat) : Option Nat :=
  match hexVal c1, hexVal c2 with
  | some v1, some v2 => some (16 * v1 + v2)
  | _, _ => none

/-- Spec-side completeness rule as claimed: the segment contains a `'#'`
at a (0-based) index less than or equal to its length minus 2 —
equivalently, a `'#'` among all but the last byte. -/
def specCompleteClaim (cand : List Nat) : Bool :=
  (cand.take (cand.length - 1)).contains 0x23

/-- Spec-side scan for a literal `0x03` lying outside any `$…#cc` packet
frame.  State 0: outside a frame; 1: inside, after `'$'`; 2 and 3: the two
checksum characters following `'#'`. -/
def specScan : Nat → List Nat → Bool
  | _, [] => false
  | 0, c :: r => if c = 0x03 then true else if c = 0x24 then specScan 1 r else specScan 0 r
  | 1, c :: r => if c = 0x23 then specScan 2 r else specScan 1 r
  | 2, _ :: r => specScan 3 r
  | _, _ :: r => specScan 0 r

/-- Spec-side predicate: the chunk contains a `0x03` byte outside any
`$…#` packet frame. -/
def specUnframed0x03 (data : List Nat) : Bool := specScan 0 data

/-! ## Proof scaffolding definitions -/

/-- Per-byte form of the sequential `str.replace` escaping in
`send_packet`: the four escaped bytes become `'}'` followed by the byte
XOR 0x20; all others pass through. -/
def escapeByte (c : Nat) : List Nat :=
  if c = 0x7D ∨ c = 0x23 ∨ c = 0x24 ∨ c = 0x2A then [0x7D, c ^^^ 0x20] else [c]

/-- The byte stream framing a sequence of payloads: the concatenation of
their `send_packet` frames. -/
def streamOf (Ps : List (List Nat)) : List Nat := (Ps.map sendPacket).flatten

/-- Mid-stream parser invariant: the pending buffer `p` together with the
unconsumed stream `s` is positioned either exactly at a frame boundary
(before a `'$'`), or inside the frame of the first remaining payload with
`k` body bytes already consumed. -/
def MidState (p s : List Nat) (Qs : List (List Nat)) : Prop :=
  (p = [] ∧ s = streamOf Qs) ∨
  ∃ Q Qs2 k, Qs = Q :: Qs2 ∧ k < (frameBody Q).length ∧
    p = (frameBody Q).take k ∧ s = (frameBody Q).drop k ++ streamOf Qs2

/-! ## Lemmas: `splitOn` -/

theorem splitOn_nil (sep : Nat) : splitOn sep [] = [[]] := rfl

theorem splitOn_ne_nil (sep : Nat) (l : List Nat) : splitOn sep l ≠ [] := by
  induction l with
  | nil => simp [splitOn]
  | cons b rest ih =>
    simp only [splitOn]
    split
    · simp
    · cases h : splitOn sep rest with
      | nil => simp
      | cons s ss => simp

theorem splitOn_cons_sep (sep : Nat) (l : List Nat) :
    splitOn sep (sep :: l) = [] :: splitOn sep l := by
  simp [splitOn]

theorem splitOn_cons_ne (sep b : Nat) (l : List Nat) (hb : b ≠ sep) {s : List Nat}
    {ss : List (List Nat)} (h : splitOn sep l = s :: ss) :
    splitOn sep (b :: l) = (b :: s) :: ss := by
  simp only [splitOn, if_neg hb, h]

theorem splitOn_eq_cons (sep : Nat) (l : List Nat) :
    ∃ s ss, splitOn sep l = s :: ss := by
  cases h : splitOn sep l with
  | nil => exact absurd h (splitOn_ne_nil sep l)
  | cons s ss => exact ⟨s, ss, rfl⟩

theorem splitOn_nosep (sep : Nat) (l : List Nat) (h : sep ∉ l) :
    splitOn sep l = [l] := by
  induction l with
  | nil => rfl
  | cons b rest ih =>
    have hb : b ≠ sep := fun hb => h (hb ▸ List.mem_cons_self b rest)
    have hrest : sep ∉ rest := fun hr => h (List.mem_cons_of_mem b hr)
    exact splitOn_cons_ne sep b rest hb (ih hrest)

theorem splitOn_append_nosep (sep : Nat) (a x : List Nat) (h : sep ∉ a)
    {s : List Nat} {ss : List (List Nat)} (hx : splitOn sep x = s :: ss) :
    splitOn sep (a ++ x) = (a ++ s) :: ss := by
  induction a with
  | nil => simpa using hx
  | cons b rest ih =>
    have hb : b ≠ sep := fun hb => h (hb ▸ List.mem_cons_self b rest)
    have hrest : sep ∉ rest := fun hr => h (List.mem_cons_of_mem b hr)
    have := ih hrest
    simpa using splitOn_cons_ne sep b (rest ++ x) hb this

theorem splitOn_mem_sublist (sep : Nat) (l : List Nat) :
    ∀ p ∈ splitOn sep l, ∀ b ∈ p, b ∈ l := by
  induction l with
  | nil => intro p hp b hb; simp [splitOn] at hp; subst hp; simp at hb
  | cons c rest ih =>
    intro p hp b hb
    by_cases hc : c = sep
    · subst hc
      rw [splitOn_cons_sep] at hp
      rcases List.mem_cons.mp hp with hp | hp
      · subst hp; simp at hb
      · exact List.mem_cons_of_mem _ (ih p hp b hb)
    · obtain ⟨s, ss, h⟩ := splitOn_eq_cons sep rest
      rw [splitOn_cons_ne sep c rest hc h] at hp
      rcases List.mem_cons.mp hp with hp | hp
      · subst hp
        rcases List.mem_cons.mp hb with hb | hb
        · exact hb ▸ List.mem_cons_self c rest
        · exact List.mem_cons_of_mem _ (ih s (h ▸ List.mem_cons_self s ss) b hb)
      · exact List.mem_cons_of_mem _ (ih p (h ▸ List.mem_cons_of_mem s hp) b hb)

/-! ## Lemmas: escaping -/

theorem replace1_nil (n : Nat) (r : List Nat) : replace1 n r [] = [] := rfl

theorem replace1_append (n : Nat) (r a b : List Nat) :
    replace1 n r (a ++ b) = replace1 n r a ++ replace1 n r b := by
  induction a with
  | nil => rfl
  | cons c rest ih => simp [replace1, ih]

theorem escapeChain_nil : escapeChain [] = [] := rfl

theorem escapeChain_cons (c : Nat) (rest : List Nat) :
    escapeChain (c :: rest) = escapeByte c ++ escapeChain rest := by
  have h1 : replace1 0x7D [0x7D, 0x5D] (c :: rest) =
      (if c = 0x7D then [0x7D, 0x5D] else [c]) ++ replace1 0x7D [0x7D, 0x5D] rest := rfl
  unfold escapeChain
  rw [h1, replace1_append, replace1_append, replace1_append]
  congr 1
  by_cases h7 : c = 0x7D
  · subst h7; simp [escapeByte, replace1]
  · by_cases h3 : c = 0x23
    · subst h3; simp [escapeByte, replace1]
    · by_cases h4 : c = 0x24
      · subst h4; simp [escapeByte, replace1]
      · by_cases ha : c = 0x2A
        · subst ha; simp [escapeByte, replace1]
        · simp [escapeByte, replace1, h7, h3, h4, ha]

theorem escapeByte_no_hash (c : Nat) : 0x23 ∉ escapeByte c := by
  unfold escapeByte
  split
  · rename_i h
    rcases h with h | h | h | h <;> subst h <;> decide
  · rename_i h
    intro hm
    have hc : c = 0x23 := (List.mem_singleton.mp hm).symm
    exact h (Or.inr (Or.inl hc))

theorem escapeByte_no_dollar (c : Nat) : 0x24 ∉ escapeByte c := by
  unfold escapeByte
  split
  · rename_i h
    rcases h with h | h | h | h <;> subst h <;> decide
  · rename_i h
    intro hm
    have hc : c = 0x24 := (List.mem_singleton.mp hm).symm
    exact h (Or.inr (Or.inr (Or.inl hc)))

theorem escapeByte_ascii (c : Nat) (hc : c < 0x80) : ∀ b ∈ escapeByte c, b < 0x80 := by
  unfold escapeByte
  split
  · rename_i h
    rcases h with h | h | h | h <;> subst h <;> decide
  · intro b hb
    rcases List.mem_singleton.mp hb with rfl
    exact hc

theorem escapeChain_no_hash (P : List Nat) : 0x23 ∉ escapeChain P := by
  induction P with
  | nil => simp [escapeChain_nil]
  | cons c rest ih =>
    rw [escapeChain_cons]
    intro hm
    rcases List.mem_append.mp hm with hm | hm
    · exact escapeByte_no_hash c hm
    · exact ih hm

theorem escapeChain_no_dollar (P : List Nat) : 0x24 ∉ escapeChain P := by
  induction P with
  | nil => simp [escapeChain_nil]
  | cons c rest ih =>
    rw [escapeChain_cons]
    intro hm
    rcases List.mem_append.mp hm with hm | hm
    · exact escapeByte_no_dollar c hm
    · exact ih hm

theorem escapeChain_ascii (P : List Nat) (h : ∀ b ∈ P, b < 0x80) :
    ∀ b ∈ escapeChain P, b < 0x80 := by
  induction P with
  | nil => simp [escapeChain_nil]
  | cons c rest ih =>
    rw [escapeChain_cons]
    intro b hb
    rcases List.mem_append.mp hb with hb | hb
    · exact escapeByte_ascii c (h c (List.mem_cons_self c rest)) b hb
    · exact ih (fun x hx => h x (List.mem_cons_of_mem c hx)) b hb

/-! ## Lemmas: unescaping -/

theorem unescape_nil : unescape [] = some [] := rfl

theorem unescape_cons_ne (c : Nat) (l : List Nat) (hc : c ≠ 0x7D) (ha : c < 0x80) :
    unescape (c :: l) = (unescape l).map (fun r => c :: r) := by
  obtain ⟨s, ss, h⟩ := splitOn_eq_cons 0x7D l
  have h2 : splitOn 0x7D (c :: l) = (c :: s) :: ss := splitOn_cons_ne 0x7D c l hc h
  cases hs : s.all (fun b => decide (b < 0x80)) <;>
    cases hr : unescapeRuns ss <;>
      simp [unescape, h, h2, hs, hr, ha]

theorem unescape_brace (x : Nat) (l : List Nat) (hx : x ≠ 0x7D) :
    unescape (0x7D :: x :: l) = (unescape l).map (fun r => (x ^^^ 0x20) :: r) := by
  obtain ⟨s, ss, h⟩ := splitOn_eq_cons 0x7D l
  have h2 : splitOn 0x7D (0x7D :: x :: l) = [] :: (x :: s) :: ss := by
    rw [splitOn_cons_sep, splitOn_cons_ne 0x7D x l hx h]
  cases hs : s.all (fun b => decide (b < 0x80)) <;>
    cases hr : unescapeRuns ss <;>
      simp [unescape, h, h2, hs, hr, unescapeRuns, unescapeRun]

theorem unescape_escapeChain (P : List Nat) (h : ∀ b ∈ P, b < 0x80) :
    unescape (escapeChain P) = some P := by
  induction P with
  | nil => rfl
  | cons c rest ih =>
    have hrest := ih (fun x hx => h x (List.mem_cons_of_mem c hx))
    have hc : c < 0x80 := h c (List.mem_cons_self c rest)
    rw [escapeChain_cons]
    unfold escapeByte
    split
    · rename_i hsp
      have hxne : (c ^^^ 0x20) ≠ 0x7D := by
        rcases hsp with h1 | h1 | h1 | h1 <;> subst h1 <;> decide
      have : [0x7D, c ^^^ 0x20] ++ escapeChain rest = 0x7D :: (c ^^^ 0x20) :: escapeChain rest := rfl
      rw [this, unescape_brace _ _ hxne, hrest]
      simp [Nat.xor_cancel_right]
    · rename_i hsp
      have hne : c ≠ 0x7D := fun hh => hsp (Or.inl hh)
      have : [c] ++ escapeChain rest = c :: escapeChain rest := rfl
      rw [this, unescape_cons_ne _ _ hne hc, hrest]
      rfl

theorem unescapeRuns_ascii (runs : List (List Nat))
    (h : ∀ r ∈ runs, ∀ b ∈ r, b < 0x80) :
    ∃ ps, unescapeRuns runs = some ps ∧ ∀ piece ∈ ps, ∀ b ∈ piece, b < 0x80 := by
  induction runs with
  | nil => exact ⟨[], rfl, by simp⟩
  | cons run rest ih =>
    obtain ⟨ps, hps, hascii⟩ := ih (fun r hr => h r (List.mem_cons_of_mem run hr))
    have hrun := h run (List.mem_cons_self run rest)
    cases run with
    | nil =>
      refine ⟨[] :: ps, ?_, ?_⟩
      · simp [unescapeRuns, unescapeRun, hps]
      · intro piece hp b hb
        rcases List.mem_cons.mp hp with hp | hp
        · subst hp; simp at hb
        · exact hascii piece hp b hb
    | cons c cs =>
      have hcs : cs.all (fun b => decide (b < 0x80)) = true := by
        rw [List.all_eq_true]
        intro b hb
        exact decide_eq_true (hrun b (List.mem_cons_of_mem c hb))
      refine ⟨((c ^^^ 0x20) :: cs) :: ps, ?_, ?_⟩
      · simp [unescapeRuns, unescapeRun, hcs, hps]
      · intro piece hp b hb
        rcases List.mem_cons.mp hp with hp | hp
        · subst hp
          rcases List.mem_cons.mp hb with hb | hb
          · subst hb
            have hc : c < 0x80 := hrun c (List.mem_cons_self c cs)
            calc c ^^^ 0x20 < 2 ^ 7 := Nat.xor_lt_two_pow (by omega) (by omega)
              _ = 0x80 := by norm_num
          · exact hrun b (List.mem_cons_of_mem c hb)
        · exact hascii piece hp b hb

theorem unescape_ascii_some (pay : List Nat) (h : ∀ b ∈ pay, b < 0x80) :
    ∃ up, unescape pay = some up ∧ ∀ b ∈ up, b < 0x80 := by
  obtain ⟨s, ss, hsplit⟩ := splitOn_eq_cons 0x7D pay
  have hparts := splitOn_mem_sublist 0x7D pay
  have hs_ascii : ∀ b ∈ s, b < 0x80 := fun b hb =>
    h b (hparts s (hsplit ▸ List.mem_cons_self s ss) b hb)
  have hss_ascii : ∀ r ∈ ss, ∀ b ∈ r, b < 0x80 := fun r hr b hb =>
    h b (hparts r (hsplit ▸ List.mem_cons_of_mem s hr) b hb)
  obtain ⟨ps, hps, hascii⟩ := unescapeRuns_ascii ss hss_ascii
  have hs_all : s.all (fun b => decide (b < 0x80)) = true := by
    rw [List.all_eq_true]; intro b hb; exact decide_eq_true (hs_ascii b hb)
  refine ⟨s ++ ps.flatten, ?_, ?_⟩
  · simp [unescape, hsplit, hs_all, hps]
  · intro b hb
    rcases List.mem_append.mp hb with hb | hb
    · exact hs_ascii b hb
    · obtain ⟨piece, hpiece, hbp⟩ := List.mem_flatten.mp hb
      exact hascii piece hpiece b hbp

/-! ## Lemmas: hex digits and checksums -/

theorem hexChar_lt (n : Nat) (h : n < 16) : hexChar n < 0x80 := by
  unfold hexChar; split <;> omega

theorem pyIntHex_hexPair : ∀ a, a < 16 → ∀ b, b < 16 →
    pyIntHex [hexChar a, hexChar b] = some ((16 * a + b : Nat) : Int) := by decide

theorem hexChar_ne_hash (n : Nat) : hexChar n ≠ 0x23 := by
  unfold hexChar; split <;> omega

theorem hexChar_ne_dollar (n : Nat) : hexChar n ≠ 0x24 := by
  unfold hexChar; split <;> omega

theorem byteHex_no_hash (v : Nat) : 0x23 ∉ byteHex v := by
  intro hm
  rcases List.mem_cons.mp hm with h | h
  · exact hexChar_ne_hash _ h.symm
  · exact hexChar_ne_hash _ (List.mem_singleton.mp h).symm

theorem byteHex_no_dollar (v : Nat) : 0x24 ∉ byteHex v := by
  intro hm
  rcases List.mem_cons.mp hm with h | h
  · exact hexChar_ne_dollar _ h.symm
  · exact hexChar_ne_dollar _ (List.mem_singleton.mp h).symm

theorem byteHex_ascii (v : Nat) (hv : v < 256) : ∀ b ∈ byteHex v, b < 0x80 := by
  intro b hb
  rcases List.mem_cons.mp hb with h | h
  · exact h ▸ hexChar_lt _ (by omega)
  · exact (List.mem_singleton.mp h) ▸ hexChar_lt _ (Nat.mod_lt _ (by norm_num))

theorem verify_checksum_byteHex (P : List Nat) :
    verify_checksum P (byteHex (P.sum % 256)) = true := by
  have hv : P.sum % 256 < 256 := Nat.mod_lt _ (by norm_num)
  have h1 : (P.sum % 256) / 16 < 16 := by omega
  have h2 : (P.sum % 256) % 16 < 16 := Nat.mod_lt _ (by norm_num)
  unfold verify_checksum byteHex
  have htake : ([hexChar (P.sum % 256 / 16), hexChar (P.sum % 256 % 16)].take 2) =
      [hexChar (P.sum % 256 / 16), hexChar (P.sum % 256 % 16)] := rfl
  rw [htake]
  have hfil : ([hexChar (P.sum % 256 / 16), hexChar (P.sum % 256 % 16)].filter
      (fun c => decide (c < 0x80))) =
      [hexChar (P.sum % 256 / 16), hexChar (P.sum % 256 % 16)] := by
    simp [List.filter, hexChar_lt _ h1, hexChar_lt _ h2]
  rw [hfil, pyIntHex_hexPair _ h1 _ h2]
  have : 16 * (P.sum % 256 / 16) + P.sum % 256 % 16 = P.sum % 256 := by omega
  rw [this]
  simp

/-! ## Lemmas: frame bodies and segmentation -/

theorem streamOf_nil : streamOf [] = [] := rfl

theorem streamOf_cons (Q : List Nat) (Qs : List (List Nat)) :
    streamOf (Q :: Qs) = 0x24 :: (frameBody Q ++ streamOf Qs) := by
  simp [streamOf, sendPacket]

theorem frameBody_no_dollar (P : List Nat) : 0x24 ∉ frameBody P := by
  intro hm
  unfold frameBody at hm
  rcases List.mem_append.mp hm with hm | hm
  · exact escapeChain_no_dollar P hm
  · rcases List.mem_cons.mp hm with hm | hm
    · exact absurd hm.symm (by decide)
    · exact byteHex_no_dollar _ hm

theorem frameBody_length (P : List Nat) :
    (frameBody P).length = (escapeChain P).length + 3 := by
  simp [frameBody, byteHex]

theorem splitHash_hash (l : List Nat) : splitHash (0x23 :: l) = ([], l) := by
  simp [splitHash]

theorem splitHash_cons_ne (c : Nat) (l : List Nat) (hc : c ≠ 0x23) :
    splitHash (c :: l) = (c :: (splitHash l).1, (splitHash l).2) := by
  simp [splitHash, List.takeWhile_cons, List.dropWhile_cons, hc]

theorem splitHash_append (a b : List Nat) (h : 0x23 ∉ a) :
    splitHash (a ++ 0x23 :: b) = (a, b) := by
  induction a with
  | nil => simpa using splitHash_hash b
  | cons c rest ih =>
    have hc : c ≠ 0x23 := fun hh => h (hh ▸ List.mem_cons_self c rest)
    have hrest : 0x23 ∉ rest := fun hr => h (List.mem_cons_of_mem c hr)
    have := ih hrest
    rw [List.cons_append, splitHash_cons_ne c _ hc, this]

theorem splitHash_frameBody (P : List Nat) :
    splitHash (frameBody P) = (escapeChain P, byteHex (P.sum % 256)) := by
  exact splitHash_append _ _ (escapeChain_no_hash P)

theorem isComplete_frameBody (P : List Nat) : isComplete (frameBody P) = true := by
  unfold isComplete frameBody
  have hlen : (escapeChain P ++ 0x23 :: byteHex (P.sum % 256)).length =
      (escapeChain P).length + 3 := by simp [byteHex]
  rw [hlen]
  have htake : (escapeChain P ++ 0x23 :: byteHex (P.sum % 256)).take
      ((escapeChain P).length + 3 - 2) = escapeChain P ++ [0x23] := by
    rw [List.take_append_eq_append_take, List.take_of_length_le (by omega)]
    congr 1
    have : (escapeChain P).length + 3 - 2 - (escapeChain P).length = 1 := by omega
    rw [this]
    rfl
  rw [htake]
  simp

theorem isComplete_take_frameBody (P : List Nat) (m : Nat)
    (hm : m < (frameBody P).length) : isComplete ((frameBody P).take m) = false := by
  unfold isComplete
  have hlen : ((frameBody P).take m).length = m := by
    rw [List.length_take]
    omega
  rw [hlen, List.take_take]
  have hmin : min (m - 2) m = m - 2 := by omega
  rw [hmin]
  have hle : m - 2 ≤ (escapeChain P).length := by
    have := frameBody_length P
    omega
  have htake : (frameBody P).take (m - 2) = (escapeChain P).take (m - 2) := by
    unfold frameBody
    rw [List.take_append_eq_append_take]
    have : m - 2 - (escapeChain P).length = 0 := by omega
    rw [this]
    simp
  rw [htake]
  rw [Bool.eq_false_iff]
  intro hcon
  have : (0x23 : Nat) ∈ (escapeChain P).take (m - 2) := by
    simpa using hcon
  exact escapeChain_no_hash P (List.take_subset _ _ this)

theorem frameBody_take_no_dollar (P : List Nat) (k : Nat) :
    0x24 ∉ (frameBody P).take k :=
  fun hm => frameBody_no_dollar P (List.take_subset _ _ hm)

/-! ## Lemmas: the decode pipeline over candidate lists -/

theorem getLastD_ne_nil {α : Type} {l : List α} (h : l ≠ []) (x y : α) :
    l.getLastD x = l.getLastD y := by
  cases l with
  | nil => exact absurd rfl h
  | cons a rest => rw [List.getLastD_cons, List.getLastD_cons]

theorem unescapeVerify_cons_ok (a b u : List Nat) (X : List (List Nat × List Nat))
    (hu : unescape a = some u) (hall : u.all (fun c => decide (c < 0x80)) = true)
    (hv : verify_checksum u b = true) :
    unescapeVerify ((a, b) :: X) = (unescapeVerify X).map (fun tl => u :: tl) := by
  cases hX : unescapeVerify X <;> simp [unescapeVerify, hu, hall, hv, hX]

theorem decodeCands_single_incomplete (x : List Nat) (h : isComplete x = false) :
    decodeCands [x] = some ([], x) := by
  simp [decodeCands, h, unescapeVerify]

theorem decodeCands_single_frameBody (P : List Nat) (hP : ∀ b ∈ P, b < 0x80) :
    decodeCands [frameBody P] = some ([P], []) := by
  have hasc : (escapeChain P).all (fun b => decide (b < 0x80)) = true := by
    rw [List.all_eq_true]
    intro b hb
    exact decide_eq_true (escapeChain_ascii P hP b hb)
  have hPall : P.all (fun b => decide (b < 0x80)) = true := by
    rw [List.all_eq_true]
    intro b hb
    exact decide_eq_true (hP b hb)
  simp [decodeCands, isComplete_frameBody, splitHash_frameBody, hasc,
    unescapeVerify, unescape_escapeChain P hP, hPall, verify_checksum_byteHex]

theorem decodeCands_cons_incomplete (c : List Nat) (cs : List (List Nat))
    (h : isComplete c = false) (hcs : cs ≠ []) :
    decodeCands (c :: cs) = decodeCands cs := by
  obtain ⟨d, ds, rfl⟩ := List.exists_cons_of_ne_nil hcs
  have hlast : (c :: d :: ds).getLastD [] = (d :: ds).getLastD [] := by
    simp only [List.getLastD_cons]
  have hdrop : (c :: d :: ds).dropLast = c :: (d :: ds).dropLast :=
    List.dropLast_cons₂
  unfold decodeCands
  dsimp only
  rw [hlast, hdrop, List.filter_cons_of_neg (by simp [h])]

theorem decodeCands_cons_frameBody (P : List Nat) (hP : ∀ b ∈ P, b < 0x80)
    (cs : List (List Nat)) (hcs : cs ≠ []) :
    decodeCands (frameBody P :: cs) =
      (decodeCands cs).map (fun r => (P :: r.1, r.2)) := by
  obtain ⟨d, ds, rfl⟩ := List.exists_cons_of_ne_nil hcs
  have hasc : (escapeChain P).all (fun b => decide (b < 0x80)) = true := by
    rw [List.all_eq_true]
    intro b hb
    exact decide_eq_true (escapeChain_ascii P hP b hb)
  have hPall : P.all (fun b => decide (b < 0x80)) = true := by
    rw [List.all_eq_true]
    intro b hb
    exact decide_eq_true (hP b hb)
  have hlast : (frameBody P :: d :: ds).getLastD [] = (d :: ds).getLastD [] := by
    simp only [List.getLastD_cons]
  have hdrop : (frameBody P :: d :: ds).dropLast = frameBody P :: (d :: ds).dropLast :=
    List.dropLast_cons₂
  unfold decodeCands
  dsimp only
  rw [hlast, hdrop, List.filter_cons_of_pos (by simp [isComplete_frameBody])]
  rw [List.map_cons, splitHash_frameBody]
  have hpush : ∀ (cond : Bool) (A : List (List Nat × List Nat)) (x : List Nat × List Nat),
      (if cond = true then ((escapeChain P, byteHex (P.sum % 256)) :: A) ++ [x]
       else (escapeChain P, byteHex (P.sum % 256)) :: A) =
      (escapeChain P, byteHex (P.sum % 256)) :: (if cond = true then A ++ [x] else A) := by
    intro cond A x
    cases cond <;> rfl
  rw [hpush, List.filter_cons_of_pos (by simpa using hasc)]
  rw [unescapeVerify_cons_ok _ _ P _ (unescape_escapeChain P hP) hPall
    (verify_checksum_byteHex P)]
  cases unescapeVerify
      ((if isComplete ((d :: ds).getLastD []) = true then
          ((d :: ds).dropLast.filter isComplete).map splitHash ++
            [splitHash ((d :: ds).getLastD [])]
        else ((d :: ds).dropLast.filter isComplete).map splitHash).filter
        fun pc => pc.1.all (fun b => decide (b < 0x80))) <;> simp

/-! ## Lemmas: decoding an arbitrary prefix of a valid frame stream -/

theorem isComplete_nil : isComplete [] = false := rfl

theorem decode_stream_take (Qs : List (List Nat)) : ∀ (P : List Nat) (m : Nat),
    (∀ b ∈ P, b < 0x80) → (∀ Q ∈ Qs, ∀ b ∈ Q, b < 0x80) →
    0 < m → m ≤ (frameBody P ++ streamOf Qs).length →
    ∃ Qs0 rest2 pend,
      P :: Qs = Qs0 ++ rest2 ∧
      decodeCands (splitOn 0x24 ((frameBody P ++ streamOf Qs).take m)) = some (Qs0, pend) ∧
      MidState pend ((frameBody P ++ streamOf Qs).drop m) rest2 := by
  induction Qs with
  | nil =>
    intro P m hP _hQs hm hle
    simp only [streamOf_nil, List.append_nil] at hle ⊢
    rcases Nat.lt_or_ge m (frameBody P).length with hlt | hge
    · -- strictly inside the frame body: one incomplete candidate
      refine ⟨[], [P], (frameBody P).take m, by simp, ?_, ?_⟩
      · rw [splitOn_nosep 0x24 _ (frameBody_take_no_dollar P m),
          decodeCands_single_incomplete _ (isComplete_take_frameBody P m hlt)]
      · exact Or.inr ⟨P, [], m, rfl, hlt, rfl, by simp [streamOf_nil]⟩
    · -- exactly the whole frame
      have heq : m = (frameBody P).length := by omega
      subst heq
      refine ⟨[P], [], [], by simp, ?_, ?_⟩
      · rw [List.take_of_length_le (le_refl _),
          splitOn_nosep 0x24 _ (frameBody_no_dollar P),
          decodeCands_single_frameBody P hP]
      · exact Or.inl ⟨rfl, by simp [streamOf_nil, List.drop_of_length_le (le_refl _)]⟩
  | cons Q Qs2 ih =>
    intro P m hP hQs hm hle
    have hQascii : ∀ b ∈ Q, b < 0x80 := hQs Q (List.mem_cons_self Q Qs2)
    have hQs2ascii : ∀ R ∈ Qs2, ∀ b ∈ R, b < 0x80 :=
      fun R hR => hQs R (List.mem_cons_of_mem Q hR)
    rcases Nat.lt_or_ge m (frameBody P).length with hlt | hge
    · -- strictly inside the frame body of P
      have htake : (frameBody P ++ streamOf (Q :: Qs2)).take m = (frameBody P).take m := by
        rw [List.take_append_eq_append_take]
        have h0 : m - (frameBody P).length = 0 := by omega
        simp [h0]
      have hdrop : (frameBody P ++ streamOf (Q :: Qs2)).drop m =
          (frameBody P).drop m ++ streamOf (Q :: Qs2) := by
        rw [List.drop_append_eq_append_drop]
        have h0 : m - (frameBody P).length = 0 := by omega
        simp [h0]
      refine ⟨[], P :: Q :: Qs2, (frameBody P).take m, by simp, ?_, ?_⟩
      · rw [htake, splitOn_nosep 0x24 _ (frameBody_take_no_dollar P m),
          decodeCands_single_incomplete _ (isComplete_take_frameBody P m hlt)]
      · exact Or.inr ⟨P, Q :: Qs2, m, rfl, hlt, rfl, hdrop⟩
    · rcases Nat.lt_or_ge ((frameBody P).length) m with hgt | hge2
      · -- past the frame of P: consume its body, a '$', and recurse
        obtain ⟨m2, hm1⟩ : ∃ k, m - (frameBody P).length = k + 1 :=
          ⟨m - (frameBody P).length - 1, by omega⟩
        have htake : (frameBody P ++ streamOf (Q :: Qs2)).take m =
            frameBody P ++ 0x24 :: (frameBody Q ++ streamOf Qs2).take m2 := by
          rw [List.take_append_eq_append_take, List.take_of_length_le (by omega),
            streamOf_cons, hm1, List.take_succ_cons]
        have hdrop : (frameBody P ++ streamOf (Q :: Qs2)).drop m =
            (frameBody Q ++ streamOf Qs2).drop m2 := by
          rw [List.drop_append_eq_append_drop]
          have h0 : (frameBody P).drop m = [] :=
            List.drop_eq_nil_of_le (by omega)
          rw [h0, streamOf_cons, hm1, List.drop_succ_cons, List.nil_append]
        have hlen2 : m2 ≤ (frameBody Q ++ streamOf Qs2).length := by
          have : (frameBody P ++ streamOf (Q :: Qs2)).length =
              (frameBody P).length + (1 + (frameBody Q ++ streamOf Qs2).length) := by
            rw [streamOf_cons]
            simp only [List.length_append, List.length_cons]
            omega
          omega
        obtain ⟨s, ss, hsplit2⟩ := splitOn_eq_cons 0x24 ((frameBody Q ++ streamOf Qs2).take m2)
        have hsplit : splitOn 0x24 ((frameBody P ++ streamOf (Q :: Qs2)).take m) =
            frameBody P :: splitOn 0x24 ((frameBody Q ++ streamOf Qs2).take m2) := by
          rw [htake]
          have := splitOn_append_nosep 0x24 (frameBody P)
            (0x24 :: (frameBody Q ++ streamOf Qs2).take m2) (frameBody_no_dollar P)
            (splitOn_cons_sep 0x24 _)
          rw [this, hsplit2, List.append_nil]
        rcases Nat.eq_zero_or_pos m2 with hz | hpos
        · -- the chunk ends right after the '$' of the next frame
          subst hz
          refine ⟨[P], Q :: Qs2, [], by simp, ?_, ?_⟩
          · rw [hsplit]
            simp only [List.take_zero, splitOn_nil]
            rw [decodeCands_cons_frameBody P hP [[]] (by simp),
              decodeCands_single_incomplete [] isComplete_nil]
            rfl
          · refine Or.inr ⟨Q, Qs2, 0, rfl, ?_, by simp, ?_⟩
            · rw [frameBody_length]; omega
            · rw [hdrop]
              simp
        · obtain ⟨Qs0, rest2, pend, hdecomp, hdec, hmid⟩ :=
            ih Q m2 hQascii hQs2ascii hpos hlen2
          refine ⟨P :: Qs0, rest2, pend, by rw [List.cons_append, ← hdecomp], ?_, ?_⟩
          · rw [hsplit, decodeCands_cons_frameBody P hP _ (hsplit2 ▸ List.cons_ne_nil s ss),
              hdec]
            rfl
          · rw [hdrop]
            exact hmid
      · -- exactly the whole frame of P
        have heq : m = (frameBody P).length := by omega
        subst heq
        have htake : (frameBody P ++ streamOf (Q :: Qs2)).take (frameBody P).length =
            frameBody P := List.take_left _ _
        have hdrop : (frameBody P ++ streamOf (Q :: Qs2)).drop (frameBody P).length =
            streamOf (Q :: Qs2) := List.drop_left _ _
        refine ⟨[P], Q :: Qs2, [], by simp, ?_, ?_⟩
        · rw [htake, splitOn_nosep 0x24 _ (frameBody_no_dollar P),
            decodeCands_single_frameBody P hP]
        · exact Or.inl ⟨rfl, hdrop⟩

theorem decode_stream_take_boundary (Qs : List (List Nat)) (m : Nat)
    (hQs : ∀ Q ∈ Qs, ∀ b ∈ Q, b < 0x80) (hm : 0 < m)
    (hle : m ≤ (streamOf Qs).length) :
    ∃ Qs0 rest2 pend,
      Qs = Qs0 ++ rest2 ∧
      decodeCands (splitOn 0x24 ((streamOf Qs).take m)) = some (Qs0, pend) ∧
      MidState pend ((streamOf Qs).drop m) rest2 := by
  cases Qs with
  | nil =>
    rw [streamOf_nil] at hle
    simp at hle
    omega
  | cons Q Qs2 =>
    have hQascii : ∀ b ∈ Q, b < 0x80 := hQs Q (List.mem_cons_self Q Qs2)
    have hQs2ascii : ∀ R ∈ Qs2, ∀ b ∈ R, b < 0x80 :=
      fun R hR => hQs R (List.mem_cons_of_mem Q hR)
    obtain ⟨m2, rfl⟩ : ∃ k, m = k + 1 := ⟨m - 1, by omega⟩
    have htake : (streamOf (Q :: Qs2)).take (m2 + 1) =
        0x24 :: (frameBody Q ++ streamOf Qs2).take m2 := by
      rw [streamOf_cons, List.take_succ_cons]
    have hdrop : (streamOf (Q :: Qs2)).drop (m2 + 1) =
        (frameBody Q ++ streamOf Qs2).drop m2 := by
      rw [streamOf_cons, List.drop_succ_cons]
    have hsplit : splitOn 0x24 ((streamOf (Q :: Qs2)).take (m2 + 1)) =
        [] :: splitOn 0x24 ((frameBody Q ++ streamOf Qs2).take m2) := by
      rw [htake, splitOn_cons_sep]
    have hlen2 : m2 ≤ (frameBody Q ++ streamOf Qs2).length := by
      rw [streamOf_cons] at hle
      simp only [List.length_cons] at hle
      omega
    rcases Nat.eq_zero_or_pos m2 with hz | hpos
    · subst hz
      refine ⟨[], Q :: Qs2, [], by simp, ?_, ?_⟩
      · rw [hsplit]
        simp only [List.take_zero, splitOn_nil]
        rw [decodeCands_cons_incomplete [] [[]] isComplete_nil (by simp),
          decodeCands_single_incomplete [] isComplete_nil]
      · refine Or.inr ⟨Q, Qs2, 0, rfl, ?_, by simp, ?_⟩
        · rw [frameBody_length]; omega
        · rw [hdrop]
          simp
    · obtain ⟨Qs0, rest2, pend, hdecomp, hdec, hmid⟩ :=
        decode_stream_take Qs2 Q m2 hQascii hQs2ascii hpos hlen2
      obtain ⟨s, ss, hsplit2⟩ := splitOn_eq_cons 0x24 ((frameBody Q ++ streamOf Qs2).take m2)
      refine ⟨Qs0, rest2, pend, hdecomp, ?_, hdrop ▸ hmid⟩
      rw [hsplit, decodeCands_cons_incomplete [] _ isComplete_nil
        (hsplit2 ▸ List.cons_ne_nil s ss), hdec]

/-! ## Lemmas: `process_bytes` over a mid-stream state -/

theorem processBytes_eq_decodeCands (p c : List Nat) (hc : c ≠ []) (hp : 0x24 ∉ p) :
    processBytes p c = decodeCands (splitOn 0x24 (p ++ c)) := by
  obtain ⟨s, ss, h⟩ := splitOn_eq_cons 0x24 c
  have hne : c.isEmpty = false := by
    cases c with
    | nil => exact absurd rfl hc
    | cons a l => rfl
  rw [splitOn_append_nosep 0x24 p c hp h]
  simp only [processBytes, hne, Bool.false_eq_true, if_false, h, List.headI, List.tail]

theorem processBytes_midstate (p c rest : List Nat) (Qs : List (List Nat))
    (hmid : MidState p (c ++ rest) Qs) (hQs : ∀ Q ∈ Qs, ∀ b ∈ Q, b < 0x80)
    (hc : c ≠ []) :
    ∃ Qs0 rest2 p2, Qs = Qs0 ++ rest2 ∧ processBytes p c = some (Qs0, p2) ∧
      MidState p2 rest rest2 := by
  rcases hmid with ⟨hp, hs⟩ | ⟨Q, Qs2, k, rfl, hk, hpp, hs⟩
  · subst hp
    have hc' : c = (streamOf Qs).take c.length := by rw [← hs, List.take_left]
    have hr' : rest = (streamOf Qs).drop c.length := by rw [← hs, List.drop_left]
    have hlen : c.length ≤ (streamOf Qs).length := by
      rw [← hs]; simp
    have hpos : 0 < c.length := List.length_pos.mpr hc
    obtain ⟨Qs0, rest2, pend, hdecomp, hdec, hmid2⟩ :=
      decode_stream_take_boundary Qs c.length hQs hpos hlen
    refine ⟨Qs0, rest2, pend, hdecomp, ?_, hr' ▸ hmid2⟩
    rw [processBytes_eq_decodeCands [] c hc (by simp), List.nil_append, hc', hdec]
  · have hQascii : ∀ b ∈ Q, b < 0x80 := hQs Q (List.mem_cons_self Q Qs2)
    have hQs2ascii : ∀ R ∈ Qs2, ∀ b ∈ R, b < 0x80 :=
      fun R hR => hQs R (List.mem_cons_of_mem Q hR)
    have hT2 : (p ++ c) ++ rest = frameBody Q ++ streamOf Qs2 := by
      rw [List.append_assoc, hs, hpp, ← List.append_assoc, List.take_append_drop]
    have hpc : p ++ c = (frameBody Q ++ streamOf Qs2).take (p ++ c).length := by
      rw [← hT2, List.take_left]
    have hrt : rest = (frameBody Q ++ streamOf Qs2).drop (p ++ c).length := by
      rw [← hT2, List.drop_left]
    have hm : 0 < (p ++ c).length := by
      have : 0 < c.length := List.length_pos.mpr hc
      simp only [List.length_append]
      omega
    have hle : (p ++ c).length ≤ (frameBody Q ++ streamOf Qs2).length := by
      rw [← hT2]; simp
    obtain ⟨Qs0, rest2, pend, hdecomp, hdec, hmid2⟩ :=
      decode_stream_take Qs2 Q (p ++ c).length hQascii hQs2ascii hm hle
    refine ⟨Qs0, rest2, pend, hdecomp, ?_, hrt ▸ hmid2⟩
    have hpnod : 0x24 ∉ p := hpp ▸ frameBody_take_no_dollar Q k
    rw [processBytes_eq_decodeCands p c hc hpnod, hpc, hdec]

theorem processChunks_midstate : ∀ (chunks : List (List Nat)) (p : List Nat)
    (Qs : List (List Nat)), MidState p chunks.flatten Qs →
    (∀ Q ∈ Qs, ∀ b ∈ Q, b < 0x80) → processChunks p chunks = some (Qs, []) := by
  intro chunks
  induction chunks with
  | nil =>
    intro p Qs hmid hQs
    rcases hmid with ⟨rfl, hs⟩ | ⟨Q, Qs2, k, rfl, hk, hpp, hs⟩
    · cases Qs with
      | nil => rfl
      | cons Q Qs2 =>
        rw [streamOf_cons] at hs
        simp at hs
    · simp only [List.flatten_nil] at hs
      have h2 := hs.symm
      rw [List.append_eq_nil] at h2
      have h3 : (frameBody Q).length ≤ k := by
        have := h2.1
        rwa [List.drop_eq_nil_iff] at this
      omega
  | cons c cs ih =>
    intro p Qs hmid hQs
    by_cases hcnil : c = []
    · subst hcnil
      have hflat : (([] : List Nat) :: cs).flatten = cs.flatten := by simp
      rw [hflat] at hmid
      have h1 : processBytes p [] = some ([], p) := rfl
      simp only [processChunks, h1, ih p Qs hmid hQs, List.nil_append]
    · have hmid2 : MidState p (c ++ cs.flatten) Qs := by
        have : (c :: cs).flatten = c ++ cs.flatten := by simp
        rwa [this] at hmid
      obtain ⟨Qs0, rest2, p2, hdecomp, hpb, hmid3⟩ :=
        processBytes_midstate p c cs.flatten Qs hmid2 hQs hcnil
      have hrest2ascii : ∀ R ∈ rest2, ∀ b ∈ R, b < 0x80 :=
        fun R hR => hQs R (hdecomp ▸ List.mem_append_right Qs0 hR)
      simp only [processChunks, hpb, ih p2 rest2 hmid3 hrest2ascii]
      rw [hdecomp]

/-! ## Lemmas: characterizing completeness and the decode pipeline -/

theorem isComplete_iff (cand : List Nat) :
    isComplete cand = true ↔ ∃ i, i + 3 ≤ cand.length ∧ cand.get? i = some 0x23 := by
  unfold isComplete
  have hc : ((cand.take (cand.length - 2)).contains 0x23 = true) ↔
      0x23 ∈ cand.take (cand.length - 2) := List.elem_iff
  rw [hc, List.mem_take_iff_getElem]
  constructor
  · rintro ⟨i, hi, hval⟩
    have h1 : i < cand.length - 2 := lt_of_lt_of_le hi (min_le_left _ _)
    have h2 : i < cand.length := lt_of_lt_of_le hi (min_le_right _ _)
    refine ⟨i, by omega, ?_⟩
    rw [List.get?_eq_getElem?, List.getElem?_eq_getElem h2, hval]
  · rintro ⟨i, hle, hget⟩
    have h2 : i < cand.length := by omega
    rw [List.get?_eq_getElem?, List.getElem?_eq_getElem h2] at hget
    exact ⟨i, lt_min (by omega) h2, Option.some_injective _ hget⟩

theorem isComplete_append_hash (a b : List Nat) (hb : 2 ≤ b.length) :
    isComplete (a ++ 0x23 :: b) = true := by
  rw [isComplete_iff]
  refine ⟨a.length, ?_, ?_⟩
  · simp only [List.length_append, List.length_cons]
    omega
  · rw [List.get?_append_right (le_refl _)]
    simp

theorem isComplete_false_of_suffix (a s : List Nat) (ha : 0x23 ∉ a)
    (hs : s.length ≤ 2) : isComplete (a ++ s) = false := by
  rw [Bool.eq_false_iff]
  intro htrue
  obtain ⟨i, hle, hget⟩ := (isComplete_iff _).mp htrue
  rw [List.length_append] at hle
  have hia : i < a.length := by omega
  rw [List.get?_append hia] at hget
  exact ha (List.get?_mem hget)

theorem decodeCands_single_complete (x : List Nat) (h : isComplete x = true) :
    decodeCands [x] =
      (unescapeVerify ([splitHash x].filter fun pc =>
        pc.1.all (fun b => decide (b < 0x80)))).map (fun ups => (ups, ([] : List Nat))) := by
  simp [decodeCands, h]

theorem verify_checksum_eq_true_iff (u cs : List Nat) :
    verify_checksum u cs = true ↔
      pyIntHex ((cs.take 2).filter (fun c => c < 0x80)) = some ((u.sum % 256 : Int)) := by
  unfold verify_checksum
  cases hp : pyIntHex ((cs.take 2).filter (fun c => c < 0x80)) with
  | none => simp
  | some v =>
    simp only [decide_eq_true_eq, Option.some.injEq]
    constructor
    · intro hv; exact hv ▸ rfl
    · intro hv; exact hv.symm

theorem unescapeVerify_checked (l : List (List Nat × List Nat)) :
    ∃ ups, unescapeVerify (l.filter fun pc => pc.1.all (fun b => decide (b < 0x80))) =
        some ups ∧
      ∀ u ∈ ups, (∀ b ∈ u, b < 0x80) ∧
        ∃ pc ∈ l, pc.1.all (fun b => decide (b < 0x80)) = true ∧
          unescape pc.1 = some u ∧ verify_checksum u pc.2 = true := by
  induction l with
  | nil => exact ⟨[], rfl, by simp⟩
  | cons pc rest ih =>
    obtain ⟨tl, htl, htlprops⟩ := ih
    have hlift : ∀ u ∈ tl, (∀ b ∈ u, b < 0x80) ∧
        ∃ qc ∈ pc :: rest, qc.1.all (fun b => decide (b < 0x80)) = true ∧
          unescape qc.1 = some u ∧ verify_checksum u qc.2 = true := by
      intro u hu
      obtain ⟨hascii, qc, hqc, hrest⟩ := htlprops u hu
      exact ⟨hascii, qc, List.mem_cons_of_mem pc hqc, hrest⟩
    by_cases hA : pc.1.all (fun b => decide (b < 0x80)) = true
    · have hascii : ∀ b ∈ pc.1, b < 0x80 := by
        intro b hb
        have := List.all_eq_true.mp hA b hb
        exact of_decide_eq_true this
      obtain ⟨up, hup, hupascii⟩ := unescape_ascii_some pc.1 hascii
      have hupall : up.all (fun b => decide (b < 0x80)) = true := by
        rw [List.all_eq_true]
        exact fun b hb => decide_eq_true (hupascii b hb)
      have hfc : List.filter (fun pc => pc.1.all fun b => decide (b < 0x80)) (pc :: rest) =
          pc :: List.filter (fun pc => pc.1.all fun b => decide (b < 0x80)) rest := by
        simp [List.filter_cons, hA]
      rw [hfc]
      refine ⟨if verify_checksum up pc.2 then up :: tl else tl, ?_, ?_⟩
      · simp only [unescapeVerify, hup, hupall, htl]
        rfl
      · intro u hu
        by_cases hv : verify_checksum up pc.2 = true
        · rw [if_pos hv] at hu
          rcases List.mem_cons.mp hu with hu | hu
          · subst hu
            exact ⟨hupascii, pc, List.mem_cons_self pc rest, hA, hup, hv⟩
          · exact hlift u hu
        · rw [if_neg hv] at hu
          exact hlift u hu
    · have hfc : List.filter (fun pc => pc.1.all fun b => decide (b < 0x80)) (pc :: rest) =
          List.filter (fun pc => pc.1.all fun b => decide (b < 0x80)) rest := by
        simp [List.filter_cons, eq_false_of_ne_true hA]
      rw [hfc]
      exact ⟨tl, htl, hlift⟩

theorem getLastD_mem {α : Type} : ∀ (l : List α) (d : α), l ≠ [] → l.getLastD d ∈ l := by
  intro l
  induction l with
  | nil => intro d h; exact absurd rfl h
  | cons a rest ih =>
    intro d _
    cases rest with
    | nil => simp
    | cons b t =>
      rw [List.getLastD_cons]
      exact List.mem_cons_of_mem a (ih a (by simp))

theorem mem_completeList (cands : List (List Nat)) (pc : List Nat × List Nat)
    (hpc : pc ∈ (if isComplete (cands.getLastD []) = true then
        (cands.dropLast.filter isComplete).map splitHash ++ [splitHash (cands.getLastD [])]
      else (cands.dropLast.filter isComplete).map splitHash)) :
    ∃ cand ∈ cands, isComplete cand = true ∧ pc = splitHash cand := by
  have hfront : pc ∈ (cands.dropLast.filter isComplete).map splitHash →
      ∃ cand ∈ cands, isComplete cand = true ∧ pc = splitHash cand := by
    intro hm
    obtain ⟨cand, hcand, heq⟩ := List.mem_map.mp hm
    obtain ⟨hmem, hcomp⟩ := List.mem_filter.mp hcand
    exact ⟨cand, List.dropLast_subset _ hmem, hcomp, heq.symm⟩
  by_cases hL : isComplete (cands.getLastD []) = true
  · rw [if_pos hL] at hpc
    rcases List.mem_append.mp hpc with hpc | hpc
    · exact hfront hpc
    · have heq : pc = splitHash (cands.getLastD []) := List.mem_singleton.mp hpc
      cases cands with
      | nil => exact absurd hL (by simp [isComplete_nil])
      | cons c cs =>
        exact ⟨(c :: cs).getLastD [], getLastD_mem _ _ (by simp), hL, heq⟩
  · rw [if_neg hL] at hpc
    exact hfront hpc

theorem decodeCands_characterize (cands : List (List Nat)) :
    ∃ ps, decodeCands cands =
        some (ps, if isComplete (cands.getLastD []) = true then [] else cands.getLastD []) ∧
      ∀ u ∈ ps, (∀ b ∈ u, b < 0x80) ∧
        ∃ cand ∈ cands, isComplete cand = true ∧
          (splitHash cand).1.all (fun b => decide (b < 0x80)) = true ∧
          unescape (splitHash cand).1 = some u ∧
          verify_checksum u (splitHash cand).2 = true := by
  obtain ⟨ups, hups, hprops⟩ := unescapeVerify_checked
    (if isComplete (cands.getLastD []) = true then
      (cands.dropLast.filter isComplete).map splitHash ++ [splitHash (cands.getLastD [])]
    else (cands.dropLast.filter isComplete).map splitHash)
  refine ⟨ups, ?_, ?_⟩
  · unfold decodeCands
    dsimp only
    rw [hups]
    rfl
  · intro u hu
    obtain ⟨hascii, pc, hpc, hA, hup, hv⟩ := hprops u hu
    obtain ⟨cand, hcand, hcomp, heq⟩ := mem_completeList cands pc hpc
    subst heq
    exact ⟨hascii, cand, hcand, hcomp, hA, hup, hv⟩

/-! ## Lemmas: hex formatting -/

theorem hexStr_append (a b : List Nat) : hexStr (a ++ b) = hexStr a ++ hexStr b := by
  simp [hexStr]

theorem hexStr_length (bs : List Nat) : (hexStr bs).length = 2 * bs.length := by
  induction bs with
  | nil => rfl
  | cons b rest ih =>
    simp only [hexStr, List.map_cons, List.flatten_cons, List.length_append] at ih ⊢
    simp [byteHex] at ih ⊢
    omega

theorem natHexDigitsAux_small (fuel n : Nat) (hf : 1 ≤ fuel) (hn : n < 16) :
    natHexDigitsAux fuel n = [hexChar n] := by
  cases fuel with
  | zero => omega
  | succ f => simp [natHexDigitsAux, hn]

theorem natHexDigits_small (x : Nat) (h : x < 16) : natHexDigits x = [hexChar x] :=
  natHexDigitsAux_small (x + 1) x (by omega) h

theorem natHexDigits_two (x : Nat) (h16 : 16 ≤ x) (h : x < 256) :
    natHexDigits x = [hexChar (x / 16), hexChar (x % 16)] := by
  unfold natHexDigits natHexDigitsAux
  have hx : ¬x < 16 := by omega
  simp only [hx, if_false]
  rw [natHexDigitsAux_small x (x / 16) (by omega) (by omega)]
  rfl

theorem pyFormatHex_two (x : Nat) (h : x < 256) :
    pyFormatHex 2 (x : Int) = byteHex x := by
  unfold pyFormatHex
  rw [if_neg (by omega)]
  have htn : (x : Int).toNat = x := Int.toNat_ofNat x
  rw [htn]
  rcases Nat.lt_or_ge x 16 with hlt | hge
  · rw [natHexDigits_small x hlt]
    have : x / 16 = 0 := by omega
    simp [byteHex, this, List.replicate, hexChar, Nat.mod_eq_of_lt hlt]
  · rw [natHexDigits_two x hge h]
    simp [byteHex, List.replicate]

/-! # Claim theorems -/

/-- C1: Packet codec round-trip.  For every payload `P` whose bytes are all
below 0x80, decoding the frame produced by `send_packet` (escaping of `$`,
`#`, `}`, `*` as `}` plus byte XOR 0x20, framed as `$` payload `#` and a
two-hex-digit checksum of the unescaped payload modulo 256) with a fresh
`GdbPacketParser.process_bytes` yields exactly the one payload `P`; and for
every byte stream framing a sequence of such packets, feeding the stream
split at arbitrary chunk boundaries yields the same concatenated sequence
of decoded payloads -- the framed payloads, with empty final pending --
as feeding it in a single call. -/
theorem c1_packet_codec_roundtrip :
    (∀ P : List Nat, (∀ b ∈ P, b < 0x80) →
      processBytes [] (sendPacket P) = some ([P], [])) ∧
    (∀ Ps chunks : List (List Nat), (∀ P ∈ Ps, ∀ b ∈ P, b < 0x80) →
      chunks.flatten = streamOf Ps →
      processChunks [] chunks = some (Ps, []) ∧
      processBytes [] (streamOf Ps) = some (Ps, [])) := by
  have hchunks : ∀ Ps chunks : List (List Nat), (∀ P ∈ Ps, ∀ b ∈ P, b < 0x80) →
      chunks.flatten = streamOf Ps → processChunks [] chunks = some (Ps, []) := by
    intro Ps chunks hascii heq
    exact processChunks_midstate chunks [] Ps (Or.inl ⟨rfl, heq⟩) hascii
  have hsingle : ∀ Ps : List (List Nat), (∀ P ∈ Ps, ∀ b ∈ P, b < 0x80) →
      processBytes [] (streamOf Ps) = some (Ps, []) := by
    intro Ps hascii
    have h1 : processChunks [] [streamOf Ps] = some (Ps, []) :=
      hchunks Ps [streamOf Ps] hascii (by simp)
    cases hpb : processBytes [] (streamOf Ps) with
    | none =>
      rw [processChunks, hpb] at h1
      exact absurd h1 (by simp)
    | some r =>
      obtain ⟨ps, p1⟩ := r
      rw [processChunks, hpb] at h1
      have h2 : processChunks p1 [] = some ([], p1) := rfl
      simp only [h2, List.append_nil, Option.some.injEq, Prod.mk.injEq] at h1
      rw [h1.1, h1.2]
  refine ⟨?_, fun Ps chunks ha he => ⟨hchunks Ps chunks ha he, hsingle Ps ha⟩⟩
  intro P hP
  have hone := hsingle [P] (by
    intro Q hQ
    rw [List.mem_singleton.mp hQ]
    exact hP)
  rwa [show streamOf [P] = sendPacket P by simp [streamOf]] at hone

/-- Witness for C1 at concrete inputs: the payload `"qSupported"` round-trips
through `send_packet` and `process_bytes`, and the same frame fed as the two
chunks `"$qSu"` and `"pported#37"` decodes to the same single payload. -/
theorem c1_packet_codec_roundtrip_witness :
    processBytes []
        (sendPacket [0x71, 0x53, 0x75, 0x70, 0x70, 0x6F, 0x72, 0x74, 0x65, 0x64]) =
      some ([[0x71, 0x53, 0x75, 0x70, 0x70, 0x6F, 0x72, 0x74, 0x65, 0x64]], []) ∧
    processChunks [] [[0x24, 0x71, 0x53, 0x75],
        [0x70, 0x70, 0x6F, 0x72, 0x74, 0x65, 0x64, 0x23, 0x33, 0x37]] =
      some ([[0x71, 0x53, 0x75, 0x70, 0x70, 0x6F, 0x72, 0x74, 0x65, 0x64]], []) :=
  ⟨c1_packet_codec_roundtrip.1 _ (by decide),
   (c1_packet_codec_roundtrip.2 [[0x71, 0x53, 0x75, 0x70, 0x70, 0x6F, 0x72, 0x74, 0x65, 0x64]]
     [[0x24, 0x71, 0x53, 0x75], [0x70, 0x70, 0x6F, 0x72, 0x74, 0x65, 0x64, 0x23, 0x33, 0x37]]
     (by decide) (by decide)).1⟩

/-- C10: implicit decoder totality and output validity.  For every pending
buffer and every byte sequence fed to `process_bytes` -- including bytes at
or above 0x80, garbage, stray escape bytes and arbitrary fragments -- the
call returns (no exception: the result is `some`), the parser state is
again a single byte buffer, and every returned payload has all bytes below
0x80 and is the unescaping of the payload part of one of this call's
complete candidate segments whose bytes all passed the ASCII check and
whose checksum field verified against that unescaped payload. -/
theorem c10_decoder_totality :
    ∀ pending data : List Nat, ∃ ps pend,
      processBytes pending data = some (ps, pend) ∧
      ∀ P ∈ ps, (∀ b ∈ P, b < 0x80) ∧
        ∃ cand ∈ (pending ++ (splitOn 0x24 data).headI) :: (splitOn 0x24 data).tail,
          isComplete cand = true ∧
          (splitHash cand).1.all (fun b => decide (b < 0x80)) = true ∧
          unescape (splitHash cand).1 = some P ∧
          verify_checksum P (splitHash cand).2 = true := by
  intro pending data
  cases hd : data.isEmpty with
  | true =>
    refine ⟨[], pending, ?_, by simp⟩
    simp [processBytes, hd]
  | false =>
    obtain ⟨ps, hps, hprops⟩ := decodeCands_characterize
      ((pending ++ (splitOn 0x24 data).headI) :: (splitOn 0x24 data).tail)
    refine ⟨ps,
      (if isComplete (((pending ++ (splitOn 0x24 data).headI) ::
          (splitOn 0x24 data).tail).getLastD []) = true then []
       else ((pending ++ (splitOn 0x24 data).headI) ::
          (splitOn 0x24 data).tail).getLastD []), ?_, hprops⟩
    simp only [processBytes, hd, Bool.false_eq_true, if_false]
    exact hps

/-- Witness for C10 at a concrete garbage input (a non-ASCII byte, a
stray `'$'` and a trailing escape byte): the decoder still returns. -/
theorem c10_decoder_totality_witness :
    ∃ ps pend, processBytes [0x41] [0xFF, 0x24, 0x7D] = some (ps, pend) ∧
      ∀ P ∈ ps, (∀ b ∈ P, b < 0x80) ∧
        ∃ cand ∈ ([0x41] ++ (splitOn 0x24 [0xFF, 0x24, 0x7D]).headI) ::
            (splitOn 0x24 [0xFF, 0x24, 0x7D]).tail,
          isComplete cand = true ∧
          (splitHash cand).1.all (fun b => decide (b < 0x80)) = true ∧
          unescape (splitHash cand).1 = some P ∧
          verify_checksum P (splitHash cand).2 = true :=
  c10_decoder_totality [0x41] [0xFF, 0x24, 0x7D]

/-- C3 counterexample: the segment `"#0"` (after the frame start `"$"`)
contains `'#'` at index 0, which is its length minus 2, so the claimed
rule calls it complete; but `process_bytes` treats it as incomplete and
keeps it as the pending partial buffer instead of decoding it. -/
theorem c3_counterexample :
    specCompleteClaim [0x23, 0x30] = true ∧
    isComplete [0x23, 0x30] = false ∧
    processBytes [] [0x24, 0x23, 0x30] = some ([], [0x23, 0x30]) := by decide

/-- C3 amended: a segment is complete iff it contains a `'#'` at an index
`i` with `i + 3 ≤ length` -- that is, at an index at most the length minus
3, so that at least two checksum bytes follow -- and for nonempty input
the new pending buffer is the last candidate segment exactly when that
segment is incomplete, and empty otherwise. -/
theorem c3_segmentation_rule :
    (∀ cand : List Nat, isComplete cand = true ↔
      ∃ i, i + 3 ≤ cand.length ∧ cand.get? i = some 0x23) ∧
    (∀ pending data : List Nat, data.isEmpty = false →
      ∃ ps, processBytes pending data =
        some (ps,
          if isComplete (((pending ++ (splitOn 0x24 data).headI) ::
              (splitOn 0x24 data).tail).getLastD []) = true then []
          else ((pending ++ (splitOn 0x24 data).headI) ::
              (splitOn 0x24 data).tail).getLastD [])) := by
  refine ⟨isComplete_iff, ?_⟩
  intro pending data hd
  obtain ⟨ps, hps, _⟩ := decodeCands_characterize
    ((pending ++ (splitOn 0x24 data).headI) :: (splitOn 0x24 data).tail)
  refine ⟨ps, ?_⟩
  simp only [processBytes, hd, Bool.false_eq_true, if_false]
  exact hps

/-- C2 counterexample: the valid frame `"$\x08#08"` (payload byte 0x08,
checksum `"08"`) with its first checksum byte corrupted from `'0'` to `'+'`
is still accepted: the checksum characters `"+8"` are not two hex digits
hex-decoding to the payload sum, yet `process_bytes` surfaces the packet,
because Python `int("+8", 16)` tolerates the sign. -/
theorem c2_counterexample :
    specStrictHexPair 0x2B 0x38 = none ∧
    processBytes [] [0x24, 0x08, 0x23, 0x30, 0x38] = some ([[0x08]], []) ∧
    processBytes [] [0x24, 0x08, 0x23, 0x2B, 0x38] = some ([[0x08]], []) := by decide

/-- C2 amended: a framed packet is dropped silently (no payload surfaces;
no error) whenever its two checksum bytes, ASCII-decoded with non-ASCII
bytes ignored and parsed by Python `int(·, 16)` (which also tolerates
whitespace and a sign), fail to parse or parse to a value different from
the sum of the unescaped payload bytes modulo 256.  In particular any
packet whose checksum field is two hex digits with the wrong value is
dropped; but lenient parses such as `"+8"` can still match. -/
theorem c2_checksum_rejection :
    ∀ (payload : List Nat) (c1 c2 : Nat) (up : List Nat),
      0x23 ∉ payload → 0x24 ∉ payload →
      unescape payload = some up →
      pyIntHex ([c1, c2].filter (fun c => c < 0x80)) ≠ some ((up.sum % 256 : Int)) →
      ∃ pend, processBytes [] (0x24 :: (payload ++ [0x23, c1, c2])) = some ([], pend) := by
  intro payload c1 c2 up hnh hnd hup hmis
  have hpb : processBytes [] (0x24 :: (payload ++ [0x23, c1, c2])) =
      decodeCands ([] :: splitOn 0x24 (payload ++ [0x23, c1, c2])) := by
    rw [processBytes_eq_decodeCands [] _ (List.cons_ne_nil _ _) (by simp),
      List.nil_append, splitOn_cons_sep]
  by_cases h1d : c1 = 0x24
  · subst h1d
    have hsp : splitOn 0x24 (payload ++ [0x23, 0x24, c2]) =
        (payload ++ [0x23]) :: splitOn 0x24 [c2] := by
      have hrw : payload ++ [0x23, 0x24, c2] = (payload ++ [0x23]) ++ (0x24 :: [c2]) := by
        simp
      have hnod : 0x24 ∉ payload ++ [0x23] := by
        intro hm
        rcases List.mem_append.mp hm with hm | hm
        · exact hnd hm
        · exact absurd (List.mem_singleton.mp hm).symm (by decide)
      rw [hrw, splitOn_append_nosep 0x24 _ _ hnod (splitOn_cons_sep 0x24 [c2]),
        List.append_nil]
    have hinc : isComplete (payload ++ [0x23]) = false :=
      isComplete_false_of_suffix payload [0x23] hnh (by decide)
    by_cases h2d : c2 = 0x24
    · subst h2d
      have hsp2 : splitOn 0x24 [0x24] = [[], []] := by decide
      refine ⟨[], ?_⟩
      rw [hpb, hsp, hsp2,
        decodeCands_cons_incomplete [] _ isComplete_nil (by simp),
        decodeCands_cons_incomplete _ _ hinc (by simp),
        decodeCands_cons_incomplete [] _ isComplete_nil (by simp),
        decodeCands_single_incomplete [] isComplete_nil]
    · have hsp2 : splitOn 0x24 [c2] = [[c2]] :=
        splitOn_nosep 0x24 [c2] (by
          intro hm
          exact h2d (List.mem_singleton.mp hm).symm)
      have hinc2 : isComplete [c2] = false := by
        have := isComplete_false_of_suffix [] [c2] (by simp) (by simp)
        simpa using this
      refine ⟨[c2], ?_⟩
      rw [hpb, hsp, hsp2,
        decodeCands_cons_incomplete [] _ isComplete_nil (by simp),
        decodeCands_cons_incomplete _ _ hinc (by simp),
        decodeCands_single_incomplete [c2] hinc2]
  · by_cases h2d : c2 = 0x24
    · subst h2d
      have hsp : splitOn 0x24 (payload ++ [0x23, c1, 0x24]) =
          [payload ++ [0x23, c1], []] := by
        have hrw : payload ++ [0x23, c1, 0x24] = (payload ++ [0x23, c1]) ++ [0x24] := by
          simp
        have hnod : 0x24 ∉ payload ++ [0x23, c1] := by
          intro hm
          rcases List.mem_append.mp hm with hm | hm
          · exact hnd hm
          · rcases List.mem_cons.mp hm with hm | hm
            · exact absurd hm.symm (by decide)
            · exact h1d (List.mem_singleton.mp hm).symm
        have hsp24 : splitOn 0x24 [0x24] = [[], []] := by decide
        rw [hrw, splitOn_append_nosep 0x24 _ _ hnod hsp24, List.append_nil]
      have hinc : isComplete (payload ++ [0x23, c1]) = false :=
        isComplete_false_of_suffix payload [0x23, c1] hnh (by simp)
      refine ⟨[], ?_⟩
      rw [hpb, hsp,
        decodeCands_cons_incomplete [] _ isComplete_nil (by simp),
        decodeCands_cons_incomplete _ _ hinc (by simp),
        decodeCands_single_incomplete [] isComplete_nil]
    · -- neither checksum byte is a '$': a single complete candidate
      have hnod : 0x24 ∉ payload ++ [0x23, c1, c2] := by
        intro hm
        rcases List.mem_append.mp hm with hm | hm
        · exact hnd hm
        · rcases List.mem_cons.mp hm with hm | hm
          · exact absurd hm.symm (by decide)
          · rcases List.mem_cons.mp hm with hm | hm
            · exact h1d hm.symm
            · exact h2d (List.mem_singleton.mp hm).symm
      have hsp : splitOn 0x24 (payload ++ [0x23, c1, c2]) = [payload ++ [0x23, c1, c2]] :=
        splitOn_nosep 0x24 _ hnod
      have hcomp : isComplete (payload ++ [0x23, c1, c2]) = true := by
        have : payload ++ [0x23, c1, c2] = payload ++ 0x23 :: [c1, c2] := by simp
        rw [this]
        exact isComplete_append_hash payload [c1, c2] (by simp)
      have hsh : splitHash (payload ++ [0x23, c1, c2]) = (payload, [c1, c2]) := by
        have : payload ++ [0x23, c1, c2] = payload ++ 0x23 :: [c1, c2] := by simp
        rw [this]
        exact splitHash_append payload [c1, c2] hnh
      have hverif : verify_checksum up [c1, c2] = false := by
        rw [Bool.eq_false_iff]
        intro htrue
        exact hmis (by simpa using (verify_checksum_eq_true_iff up [c1, c2]).mp htrue)
      refine ⟨[], ?_⟩
      rw [hpb, hsp, decodeCands_cons_incomplete [] _ isComplete_nil (by simp),
        decodeCands_single_complete _ hcomp]
      by_cases hA : (payload.all fun b => decide (b < 0x80)) = true
      · have hfil : [splitHash (payload ++ [0x23, c1, c2])].filter
            (fun pc => pc.1.all fun b => decide (b < 0x80)) = [(payload, [c1, c2])] := by
          rw [hsh]
          simp [List.filter_cons, hA]
        rw [hfil]
        have hupascii : up.all (fun b => decide (b < 0x80)) = true := by
          have hascP : ∀ b ∈ payload, b < 0x80 := by
            intro b hb
            exact of_decide_eq_true (List.all_eq_true.mp hA b hb)
          obtain ⟨up2, hup2, hasc2⟩ := unescape_ascii_some payload hascP
          rw [hup] at hup2
          have : up = up2 := Option.some_injective _ hup2
          rw [List.all_eq_true]
          intro b hb
          exact decide_eq_true (hasc2 b (this ▸ hb))
        simp [unescapeVerify, hup, hupascii, hverif]
      · have hfil : [splitHash (payload ++ [0x23, c1, c2])].filter
            (fun pc => pc.1.all fun b => decide (b < 0x80)) = [] := by
          rw [hsh]
          simp [List.filter_cons, eq_false_of_ne_true hA]
        rw [hfil]
        rfl

/-- Witness for C2's amended drop rule: the frame `"$a#00"` carries payload
`"a"` (sum 0x61) with wrong checksum `"00"`, and is silently dropped. -/
theorem c2_checksum_rejection_witness :
    ∃ pend, processBytes [] (0x24 :: ([0x61] ++ [0x23, 0x30, 0x30])) = some ([], pend) :=
  c2_checksum_rejection [0x61] 0x30 0x30 [0x61] (by decide) (by decide) (by decide)
    (by decide)

/-- Witness for C3's amended rule: the segment `"x#37"` is complete (its
`'#'` has two bytes after it), and feeding the truncated frame `"$x#"`
updates the pending buffer as stated. -/
theorem c3_segmentation_rule_witness :
    (isComplete [0x78, 0x23, 0x33, 0x37] = true ↔
      ∃ i, i + 3 ≤ 4 ∧ [0x78, 0x23, 0x33, 0x37].get? i = some 0x23) ∧
    (∃ ps, processBytes [] [0x24, 0x78, 0x23] =
      some (ps,
        if isComplete ((([] ++ (splitOn 0x24 [0x24, 0x78, 0x23]).headI) ::
            (splitOn 0x24 [0x24, 0x78, 0x23]).tail).getLastD []) = true then []
        else (([] ++ (splitOn 0x24 [0x24, 0x78, 0x23]).headI) ::
            (splitOn 0x24 [0x24, 0x78, 0x23]).tail).getLastD [])) :=
  ⟨c3_segmentation_rule.1 [0x78, 0x23, 0x33, 0x37],
   c3_segmentation_rule.2 [] [0x24, 0x78, 0x23] (by decide)⟩

/-- C4 counterexample: the frame `send_packet "#"` is `"$}\x03#23"`; its
only `0x03` byte is the escape encoding of `'#'` inside the frame (the
frame indeed decodes to the payload `"#"`), yet the serve loop performs
the interrupt sequence on this chunk because it tests the raw bytes. -/
theorem c4_counterexample :
    sendPacket [0x23] = [0x24, 0x7D, 0x03, 0x23, 0x32, 0x33] ∧
    specUnframed0x03 [0x24, 0x7D, 0x03, 0x23, 0x32, 0x33] = false ∧
    processBytes [] [0x24, 0x7D, 0x03, 0x23, 0x32, 0x33] = some ([[0x23]], []) ∧
    serveStep [] [0x24, 0x7D, 0x03, 0x23, 0x32, 0x33] =
      some ([ServeAction.ackInterrupt, ServeAction.haltCpu, ServeAction.pollHalted,
        ServeAction.sendSigint, ServeAction.ackPacket, ServeAction.dispatch [0x23]],
        []) := by decide

/-- C4 amended: one iteration of the serve loop performs the interrupt
sequence (ACK, halt, poll, `S02`) if and only if the received chunk
contains a literal `0x03` byte anywhere -- including inside a `$…#` packet
frame, such as the escaped encoding of `'#'`. -/
theorem c4_interrupt_on_any_0x03 :
    ∀ (pending data : List Nat) (acts : List ServeAction) (pend2 : List Nat),
      serveStep pending data = some (acts, pend2) →
      (ServeAction.haltCpu ∈ acts ↔ data.contains 0x03 = true) := by
  intro pending data acts pend2 h
  unfold serveStep at h
  cases hpb : processBytes pending data with
  | none =>
    rw [hpb] at h
    exact absurd h (by simp)
  | some r =>
    rw [hpb] at h
    have h2 : ((if data.contains 0x03 = true then
        [ServeAction.ackInterrupt, ServeAction.haltCpu, ServeAction.pollHalted,
          ServeAction.sendSigint] else []) ++
        (r.1.map fun p => [ServeAction.ackPacket, ServeAction.dispatch p]).flatten,
        r.2) = (acts, pend2) := by simpa using h
    have hacts : acts = (if data.contains 0x03 = true then
        [ServeAction.ackInterrupt, ServeAction.haltCpu, ServeAction.pollHalted,
          ServeAction.sendSigint] else []) ++
        (r.1.map fun p => [ServeAction.ackPacket, ServeAction.dispatch p]).flatten :=
      ((Prod.mk.injEq _ _ _ _).mp h2).1.symm
    subst hacts
    cases hc : data.contains 0x03 with
    | true => simp [hc]
    | false =>
      simp only [hc, Bool.false_eq_true, if_false, List.nil_append]
      constructor
      · intro hmem
        obtain ⟨block, hblock, hin⟩ := List.mem_flatten.mp hmem
        obtain ⟨p, _, hpeq⟩ := List.mem_map.mp hblock
        rw [← hpeq] at hin
        rcases List.mem_cons.mp hin with hbad | hbad
        · exact absurd hbad (by simp)
        · rcases List.mem_singleton.mp hbad with hbad2
          exact absurd hbad2 (by simp)
      · intro hfalse
        exact absurd hfalse (by simp)

/-- Witness for C4's amended rule at a concrete chunk: a bare `0x03` byte
triggers the interrupt actions. -/
theorem c4_interrupt_on_any_0x03_witness :
    ServeAction.haltCpu ∈ [ServeAction.ackInterrupt, ServeAction.haltCpu,
      ServeAction.pollHalted, ServeAction.sendSigint] ↔
      [0x03].contains 0x03 = true :=
  c4_interrupt_on_any_0x03 [] [0x03]
    [ServeAction.ackInterrupt, ServeAction.haltCpu, ServeAction.pollHalted,
      ServeAction.sendSigint] [0x03] (by decide)

/-- C5 counterexample: the well-formed request `m 0,0` has its address in
the code range, so the claim promises the reply `hex(read_code(0, 0))`,
the empty string; but `read_code(0, 0)` returns empty bytes, which are
falsy, so the server replies `E02` instead. -/
theorem c5_counterexample :
    handle_m ⟨0, fun _ => 0⟩ 0 0 = strE02 ∧
    hexStr (read_code ⟨0, fun _ => 0⟩ 0 0) = [] ∧
    strE02 ≠ ([] : List Nat) := by decide

/-- C5 amended: for a well-formed `m addr,len` request the server replies
with the hex encoding of `read_code(addr, len)` when `addr` is in
`[0, 0x200000)` and `len ≥ 1` (the read is then nonempty); with the hex
encoding of `read_data(addr - 0x800000, len)` when `addr` is in
`[0x800000, 0x810000)` and `len ≥ 1`; with `E02` for every other address;
and also with `E02` whenever `len ≤ 0`, because the empty read result is
falsy. -/
theorem c5_memory_read_partition :
    ∀ (o : Ocd) (addr length : Int),
      (0 ≤ addr → addr < 0x200000 → 1 ≤ length →
        handle_m o addr length = hexStr (read_code o addr length) ∧
          read_code o addr length ≠ []) ∧
      (0x800000 ≤ addr → addr < 0x810000 → 1 ≤ length →
        handle_m o addr length = hexStr (read_data o (addr - 0x800000) length)) ∧
      (¬(0 ≤ addr ∧ addr < 0x200000) → ¬(0x800000 ≤ addr ∧ addr < 0x810000) →
        handle_m o addr length = strE02) ∧
      (length ≤ 0 → handle_m o addr length = strE02) := by
  intro o addr length
  refine ⟨?_, ?_, ?_, ?_⟩
  · intro h1 h2 h3
    have hrc : read_code o addr length ≠ [] := by
      unfold read_code
      rw [if_neg (by omega)]
      unfold load_burst
      intro hnil
      rw [List.map_eq_nil_iff, List.range_eq_nil] at hnil
      omega
    obtain ⟨x, xs, hxs⟩ := List.exists_cons_of_ne_nil hrc
    refine ⟨?_, hrc⟩
    unfold handle_m
    rw [if_pos ⟨h1, h2⟩, hxs]
    rfl
  · intro h1 h2 h3
    have hrc : read_data o (addr - 0x800000) length ≠ [] := by
      unfold read_data
      rw [if_neg (by omega)]
      unfold load_burst
      intro hnil
      rw [List.map_eq_nil_iff, List.range_eq_nil] at hnil
      omega
    obtain ⟨x, xs, hxs⟩ := List.exists_cons_of_ne_nil hrc
    unfold handle_m
    rw [if_neg (by omega), if_pos ⟨h1, h2⟩, hxs]
    rfl
  · intro h1 h2
    unfold handle_m
    rw [if_neg h1, if_neg h2]
  · intro hlen
    unfold handle_m
    by_cases hco : 0 ≤ addr ∧ addr < 0x200000
    · rw [if_pos hco]
      have hrc : read_code o addr length = [] := by
        unfold read_code
        rw [if_pos (by omega)]
      rw [hrc]
      rfl
    · rw [if_neg hco]
      by_cases hda : 0x800000 ≤ addr ∧ addr < 0x810000
      · rw [if_pos hda]
        have hrd : read_data o (addr - 0x800000) length = [] := by
          unfold read_data
          rw [if_pos (by omega)]
        rw [hrd]
        rfl
      · rw [if_neg hda]

/-- Witness for C5's amended partition at concrete inputs. -/
theorem c5_memory_read_partition_witness :
    (handle_m ⟨0, fun _ => 0⟩ 0 1 = hexStr (read_code ⟨0, fun _ => 0⟩ 0 1) ∧
      read_code ⟨0, fun _ => 0⟩ 0 1 ≠ []) ∧
    handle_m ⟨0, fun _ => 0⟩ 0x800000 1 =
      hexStr (read_data ⟨0, fun _ => 0⟩ (0x800000 - 0x800000) 1) ∧
    handle_m ⟨0, fun _ => 0⟩ 0x7FFFFF 1 = strE02 :=
  ⟨(c5_memory_read_partition ⟨0, fun _ => 0⟩ 0 1).1 (by decide) (by decide) (by decide),
   (c5_memory_read_partition ⟨0, fun _ => 0⟩ 0x800000 1).2.1 (by decide) (by decide)
     (by decide),
   (c5_memory_read_partition ⟨0, fun _ => 0⟩ 0x7FFFFF 1).2.2.1 (by decide) (by decide)⟩

/-- C6: the `M` handler's out-of-range branch sends `E02` but is missing a
`return`, so control falls through to `write_data`, whose range guard
rejects the address and yields a second reply `E01`.  No store is
performed, but the server sends two replies instead of exactly one. -/
theorem c6_memory_write_double_reply :
    ∀ (addr length : Int) (data : List Nat),
      (data.length : Int) = length →
      ¬(0x800000 ≤ addr ∧ addr < 0x810000) →
      handle_M_write addr length data = some ([strE02, strE01], []) := by
  intro addr length data hlen hrange
  unfold handle_M_write
  rw [if_neg (fun hne => hne hlen)]
  dsimp only
  rw [if_pos hrange]
  have hwd : write_data (addr - 0x800000) data = some (false, []) := by
    unfold write_data
    rw [if_pos (by omega)]
  rw [hwd]
  rfl

/-- Witness for C6 at the failing input `M 0,1:aa`: address 0 is outside
the data range; the handler sends `E02` and then `E01`, with no store. -/
theorem c6_memory_write_double_reply_witness :
    handle_M_write 0 1 [0xAA] = some ([strE02, strE01], []) :=
  c6_memory_write_double_reply 0 1 [0xAA] (by decide) (by decide)

/-- C7: `write_data` admits lengths up to 256, but `store_indirect`
asserts `1 <= burst <= 0xFF`, so a 256-byte write raises an
`AssertionError` (modelled as `none`) instead of storing and returning
`True`; lengths 1 through 255 do succeed. -/
theorem c7_write_data_length_range :
    write_data 0 (List.replicate 256 0) = none ∧
    (∀ (start : Int) (data : List Nat), 0 ≤ start → start < 0x10000 →
      1 ≤ data.length → data.length ≤ 255 →
      ∃ ws, write_data start data = some (true, ws)) := by
  constructor
  · have hlen : (List.replicate 256 (0 : Nat)).length = 256 := List.length_replicate _ _
    unfold write_data
    rw [if_neg (by rw [hlen]; omega)]
    unfold store_burst
    rw [if_pos (by omega), if_pos (by rw [hlen]; omega), if_neg (by rw [hlen]; omega)]
    rfl
  · intro start data h0 h1 h2 h3
    unfold write_data
    rw [if_neg (by omega)]
    unfold store_burst
    rw [if_pos (by omega), if_pos ⟨by omega, by omega⟩, if_pos (by omega)]
    exact ⟨_, rfl⟩

/-- Witness for C7: a three-byte write succeeds. -/
theorem c7_write_data_length_range_witness :
    write_data 0 (List.replicate 256 0) = none ∧
    ∃ ws, write_data 5 [1, 2, 3] = some (true, ws) :=
  ⟨c7_write_data_length_range.1,
   c7_write_data_length_range.2 5 [1, 2, 3] (by decide) (by decide) (by decide)
     (by decide)⟩

/-- C8: the two-slot breakpoint table.  `Z1` with both slots occupied
replies `E04`, leaves the table unchanged and makes no OCD call; `z1` with
no matching slot replies `E05` likewise; and from a fresh table the
sequence `Z1 a; Z1 b; z1 a; Z1 c` all reply `OK` while a following `Z1 d`
fails with `E04` leaving the table unchanged. -/
theorem c8_breakpoint_slots :
    (∀ (bps : Int × Int) (addr : Int), 0 ≤ bps.1 → 0 ≤ bps.2 →
      handle_Z1 bps addr = (bps, strE04, [])) ∧
    (∀ (bps : Int × Int) (addr : Int), bps.1 ≠ addr → bps.2 ≠ addr →
      handle_z1 bps addr = (bps, strE05, [])) ∧
    (∀ a b c d : Int, 0 ≤ a → 0 ≤ b → 0 ≤ c → 0 ≤ d →
      (handle_Z1 (-1, -1) a).2.1 = strOK ∧
      (handle_Z1 (handle_Z1 (-1, -1) a).1 b).2.1 = strOK ∧
      (handle_z1 (handle_Z1 (handle_Z1 (-1, -1) a).1 b).1 a).2.1 = strOK ∧
      (handle_Z1 (handle_z1 (handle_Z1 (handle_Z1 (-1, -1) a).1 b).1 a).1 c).2.1 =
        strOK ∧
      handle_Z1
          (handle_Z1 (handle_z1 (handle_Z1 (handle_Z1 (-1, -1) a).1 b).1 a).1 c).1 d =
        ((handle_Z1 (handle_z1 (handle_Z1 (handle_Z1 (-1, -1) a).1 b).1 a).1 c).1,
          strE04, [])) := by
  refine ⟨?_, ?_, ?_⟩
  · intro bps addr h1 h2
    unfold handle_Z1
    rw [if_neg (by omega), if_neg (by omega)]
  · intro bps addr h1 h2
    unfold handle_z1
    rw [if_neg h1, if_neg h2]
  · intro a b c d ha hb hc hd
    have e1 : handle_Z1 (-1, -1) a = ((a, -1), strOK, [BpCall.set 0 (Int.fdiv a 2)]) := by
      unfold handle_Z1
      rw [if_pos (by norm_num)]
    have e2 : handle_Z1 (a, -1) b = ((a, b), strOK, [BpCall.set 1 (Int.fdiv b 2)]) := by
      unfold handle_Z1
      rw [if_neg (by simp; omega), if_pos (by norm_num)]
    have e3 : handle_z1 (a, b) a = ((-1, b), strOK, [BpCall.clear 0]) := by
      unfold handle_z1
      rw [if_pos rfl]
    have e4 : handle_Z1 (-1, b) c = ((c, b), strOK, [BpCall.set 0 (Int.fdiv c 2)]) := by
      unfold handle_Z1
      rw [if_pos (by norm_num)]
    have e5 : handle_Z1 (c, b) d = ((c, b), strE04, []) := by
      unfold handle_Z1
      rw [if_neg (by simp; omega), if_neg (by simp; omega)]
    simp [e1, e2, e3, e4, e5]

/-- Witness for C8 at concrete addresses 2, 4, 6, 8 (and an occupied table
5, 7 with a clear miss at 3). -/
theorem c8_breakpoint_slots_witness :
    handle_Z1 (5, 7) 9 = ((5, 7), strE04, []) ∧
    handle_z1 (5, 7) 3 = ((5, 7), strE05, []) ∧
    (handle_Z1 (-1, -1) 2).2.1 = strOK ∧
    (handle_Z1 (handle_Z1 (-1, -1) 2).1 4).2.1 = strOK ∧
    (handle_z1 (handle_Z1 (handle_Z1 (-1, -1) 2).1 4).1 2).2.1 = strOK ∧
    (handle_Z1 (handle_z1 (handle_Z1 (handle_Z1 (-1, -1) 2).1 4).1 2).1 6).2.1 =
      strOK ∧
    handle_Z1 (handle_Z1 (handle_z1 (handle_Z1 (handle_Z1 (-1, -1) 2).1 4).1 2).1 6).1
        8 =
      ((handle_Z1 (handle_z1 (handle_Z1 (handle_Z1 (-1, -1) 2).1 4).1 2).1 6).1,
        strE04, []) := by
  refine ⟨c8_breakpoint_slots.1 (5, 7) 9 (by norm_num) (by norm_num),
    c8_breakpoint_slots.2.1 (5, 7) 3 (by norm_num) (by norm_num), ?_⟩
  exact c8_breakpoint_slots.2.2 2 4 6 8 (by norm_num) (by norm_num) (by norm_num)
    (by norm_num)

/-- C9: the reply to `g` in a halted state (SREG and SP words in range,
the OCD PC word at least 1 because the OCD exposes the PC biased by +1)
is the lowercase hex encoding of: the 32 register-file bytes, SREG, SP as
two bytes little-endian, the byte PC -- the OCD PC word minus 1, shifted
left by one -- as three bytes little-endian, and one zero pad byte;
78 hex characters in total when the register file has 32 bytes. -/
theorem c9_register_reply_format :
    ∀ (gprs : List Nat) (sreg sp pcw : Nat),
      gprs.length = 32 → sreg < 256 → sp < 0x10000 → 1 ≤ pcw → pcw ≤ 0xFFFF →
      handle_g gprs sreg sp pcw =
        hexStr (gprs ++ [sreg, sp % 256, sp / 256, (pcw - 1) * 2 % 256,
          (pcw - 1) * 2 / 256 % 256, (pcw - 1) * 2 / 65536, 0]) ∧
      (handle_g gprs sreg sp pcw).length = 78 := by
  intro gprs sreg sp pcw hlen hsreg hsp hpc1 hpc2
  have hpcInt : get_pc pcw * 2 = (((pcw - 1) * 2 : Nat) : Int) := by
    unfold get_pc
    push_cast [Nat.cast_sub hpc1]
    ring
  have hcast_mod : ∀ x : Nat, ((x : Int) % (256 : Int)) = ((x % 256 : Nat) : Int) := by
    intro x
    push_cast
    ring
  have hfd : ∀ x y : Nat, 0 < y → Int.fdiv (x : Int) (y : Int) = ((x / y : Nat) : Int) := by
    intro x y hy
    rw [Int.fdiv_eq_tdiv (by positivity) (by positivity), ← Int.ofNat_tdiv]
  have hb1 : (pcw - 1) * 2 % 256 < 256 := Nat.mod_lt _ (by norm_num)
  have hb2 : (pcw - 1) * 2 / 256 % 256 < 256 := Nat.mod_lt _ (by norm_num)
  have hb3 : (pcw - 1) * 2 / 65536 < 256 := by
    have : (pcw - 1) * 2 ≤ 0xFFFE * 2 := by omega
    omega
  have hfd64k : Int.fdiv ((((pcw - 1) * 2 : Nat)) : Int) (65536 : Int) =
      (((pcw - 1) * 2 / 65536 : Nat) : Int) := by
    have hl : (65536 : Int) = ((65536 : Nat) : Int) := by norm_num
    rw [hl]
    exact hfd _ _ (by norm_num)
  have hfd256 : Int.fdiv ((((pcw - 1) * 2 : Nat)) : Int) (256 : Int) =
      (((pcw - 1) * 2 / 256 : Nat) : Int) := by
    have hl : (256 : Int) = ((256 : Nat) : Int) := by norm_num
    rw [hl]
    exact hfd _ _ (by norm_num)
  have hmain : handle_g gprs sreg sp pcw =
      hexStr (gprs ++ [sreg, sp % 256, sp / 256, (pcw - 1) * 2 % 256,
        (pcw - 1) * 2 / 256 % 256, (pcw - 1) * 2 / 65536, 0]) := by
    unfold handle_g
    rw [hpcInt]
    dsimp only
    rw [hfd64k, hfd256, hcast_mod, hcast_mod]
    rw [pyFormatHex_two sreg hsreg, pyFormatHex_two _ (Nat.mod_lt _ (by norm_num)),
      pyFormatHex_two (sp / 256) (by omega), pyFormatHex_two _ hb1,
      pyFormatHex_two _ hb2, pyFormatHex_two _ hb3]
    rw [hexStr_append]
    have hrest : hexStr [sreg, sp % 256, sp / 256, (pcw - 1) * 2 % 256,
        (pcw - 1) * 2 / 256 % 256, (pcw - 1) * 2 / 65536, 0] =
        byteHex sreg ++ byteHex (sp % 256) ++ byteHex (sp / 256) ++
          byteHex ((pcw - 1) * 2 % 256) ++ byteHex ((pcw - 1) * 2 / 256 % 256) ++
          byteHex ((pcw - 1) * 2 / 65536) ++ byteHex 0 := by
      simp [hexStr]
    rw [hrest]
    have hz : byteHex 0 = [0x30, 0x30] := rfl
    rw [hz]
    simp [List.append_assoc]
  refine ⟨hmain, ?_⟩
  rw [hmain, hexStr_length]
  simp [hlen]

/-- Witness for C9 at the scenario of the specification: GPRs `0x00..0x1F`,
SREG `0x80`, SP `0x3FFE`, OCD PC word `0x0124` (client-visible word PC
`0x0123`); the reply is the 78-character hex string ending
`…1f 80 fe3f 460200 00`. -/
theorem c9_register_reply_format_witness :
    (handle_g (List.range 32) 0x80 0x3FFE 0x124 =
      hexStr (List.range 32 ++ [0x80, 0xFE, 0x3F, 0x46, 0x02, 0x00, 0x00]) ∧
      (handle_g (List.range 32) 0x80 0x3FFE 0x124).length = 78) ∧
    handle_g (List.range 32) 0x80 0x3FFE 0x124 =
      [0x30, 0x30, 0x30, 0x31, 0x30, 0x32, 0x30, 0x33, 0x30, 0x34, 0x30, 0x35,
       0x30, 0x36, 0x30, 0x37, 0x30, 0x38, 0x30, 0x39, 0x30, 0x61, 0x30, 0x62,
       0x30, 0x63, 0x30, 0x64, 0x30, 0x65, 0x30, 0x66, 0x31, 0x30, 0x31, 0x31,
       0x31, 0x32, 0x31, 0x33, 0x31, 0x34, 0x31, 0x35, 0x31, 0x36, 0x31, 0x37,
       0x31, 0x38, 0x31, 0x39, 0x31, 0x61, 0x31, 0x62, 0x31, 0x63, 0x31, 0x64,
       0x31, 0x65, 0x31, 0x66, 0x38, 0x30, 0x66, 0x65, 0x33, 0x66, 0x34, 0x36,
       0x30, 0x32, 0x30, 0x30, 0x30, 0x30] := by
  have h := c9_register_reply_format (List.range 32) 0x80 0x3FFE 0x124 (by decide)
    (by decide) (by decide) (by decide) (by decide)
  have heq : (0x124 - 1) * 2 % 256 = 0x46 := by decide
  have heq2 : (0x124 - 1) * 2 / 256 % 256 = 0x02 := by decide
  have heq3 : (0x124 - 1) * 2 / 65536 = 0x00 := by decide
  have heq4 : (0x3FFE : Nat) % 256 = 0xFE := by decide
  have heq5 : (0x3FFE : Nat) / 256 = 0x3F := by decide
  rw [heq, heq2, heq3, heq4, heq5] at h
  refine ⟨h, ?_⟩
  rw [h.1]
  decide

end Absurd
